import Mathlib

set_option maxRecDepth 4000

/-!
Shallow embedding of the DCInside crawl engine of this repository
(src/src/core/crawlers/dcinside/DCInsideCrawler.ts) and proofs about it.

Conventions of the embedding:
* JS strings are Lean `String`s; where character-level reasoning is needed we
  work on `String.data : List Char`.
* JS `Date` values are modelled by the KST date-literal string handed to the
  `Date` constructor (all dates the crawler builds carry an explicit +09:00
  offset, so distinct well-formed literals denote distinct instants).
* The HTML-to-text conversion done by cheerio (`stripHtml`, source line 897)
  is third-party library code; the model takes it as an abstract function
  parameter `strip : String → String`.
* The repository port (interface Repo, source lines 25..46) is modelled as a
  faithful in-memory store: `findPostByPlatformId` reports exactly the posts
  previously given to `insertPost`, and `commentExists` reports exactly the
  comment ids previously given to `insertCommentsBulk`.
* Cancellation (`shouldCancel`) and the politeness sleeps do not affect any of
  the verified data-flow properties and are modelled as absent.
-/

/-- Truthiness of a JS `string | undefined` value: `undefined` and the empty
string are falsy. -/
def jsTruthy : Option String → Bool
  | none => false
  | some s => s ≠ ""

/-- JS template interpolation of a possibly-undefined string:
`undefined` renders as the text "undefined". -/
def jsTemplate : Option String → String
  | none => "undefined"
  | some s => s

/-- Split a character list at the first occurrence of `c`.  The second
component is `none` when `c` does not occur. -/
def splitFirstCh (c : Char) : List Char → List Char × Option (List Char)
  | [] => ([], none)
  | x :: xs =>
    if x = c then ([], some xs)
    else (x :: (splitFirstCh c xs).1, (splitFirstCh c xs).2)

/-- JS `String.prototype.split` with a one-character separator: all chunks
between occurrences of the separator, keeping empty chunks. -/
def splitChars (c : Char) : List Char → List (List Char)
  | [] => [[]]
  | x :: xs =>
    if x = c then [] :: splitChars c xs
    else (splitChars c xs).modifyHead (x :: ·)

/-- Byte value of a hexadecimal digit character, if any. -/
def hexVal (c : Char) : Option Nat :=
  if '0' ≤ c ∧ c ≤ '9' then some (c.toNat - '0'.toNat)
  else if 'a' ≤ c ∧ c ≤ 'f' then some (c.toNat - 'a'.toNat + 10)
  else if 'A' ≤ c ∧ c ≤ 'F' then some (c.toNat - 'A'.toNat + 10)
  else none

/-- One decoding step after a `%` character: a valid `%xx` escape consumes
both hex digits and yields the escaped character; anything else yields the
literal `%` and leaves the input to be rescanned. -/
def percStep : List Char → Char × List Char
  | h1 :: h2 :: r2 =>
    match hexVal h1, hexVal h2 with
    | some a, some b => (Char.ofNat (16 * a + b), r2)
    | _, _ => ('%', h1 :: h2 :: r2)
  | r => ('%', r)

/-- Percent-decoding as applied by `URLSearchParams` to keys and values:
`+` decodes to a space, a valid `%xx` escape decodes to the escaped
character, and everything else is kept as is.  The `fuel` argument only
bounds the recursion (each step consumes at least one character). -/
def decodeCharsAux : Nat → List Char → List Char
  | 0, l => l
  | _ + 1, [] => []
  | fuel + 1, c :: r =>
    if c = '+' then ' ' :: decodeCharsAux fuel r
    else if c = '%' then (percStep r).1 :: decodeCharsAux fuel (percStep r).2
    else c :: decodeCharsAux fuel r

/-- Percent-decoding of a character list (fuel instantiated to the length,
which always suffices). -/
def decodeChars (l : List Char) : List Char := decodeCharsAux l.length l

/-- Whitespace characters stripped by JS `String.prototype.trim`. -/
def isWsChar (c : Char) : Bool :=
  c = ' ' ∨ c = '\t' ∨ c = '\n' ∨ c = '\r'

/-- JS `String.prototype.trim` on a character list. -/
def trimChars (l : List Char) : List Char :=
  ((l.dropWhile isWsChar).reverse.dropWhile isWsChar).reverse

/-- JS `String.prototype.trim`. -/
def jsTrim (s : String) : String := ⟨trimChars s.data⟩

/-- Does the pattern occur as a prefix of the list? -/
def startsWithSeq : List Char → List Char → Bool
  | [], _ => true
  | _ :: _, [] => false
  | p :: ps, x :: xs => p = x ∧ startsWithSeq ps xs

/-- Does the pattern occur contiguously anywhere in the list?  Models
JS `String.prototype.includes`. -/
def containsSeq (pat : List Char) : List Char → Bool
  | [] => startsWithSeq pat []
  | x :: xs => startsWithSeq pat (x :: xs) || containsSeq pat xs

/-- JS `String.prototype.startsWith`. -/
def jsStartsWith (pat s : String) : Bool := startsWithSeq pat.data s.data

/-- JS `String.prototype.includes`. -/
def jsIncludes (pat s : String) : Bool := containsSeq pat.data s.data

theorem strData_append (s t : String) : (s ++ t).data = s.data ++ t.data := rfl

theorem splitFirstCh_not_mem (c : Char) (l : List Char) (h : c ∉ l) :
    splitFirstCh c l = (l, none) := by
  induction l with
  | nil => rfl
  | cons x xs ih =>
    simp only [List.mem_cons, not_or] at h
    simp [splitFirstCh, Ne.symm h.1, ih h.2]

theorem splitFirstCh_append_found (c : Char) (l1 l2 : List Char) {a r : List Char}
    (h : splitFirstCh c l1 = (a, some r)) :
    splitFirstCh c (l1 ++ l2) = (a, some (r ++ l2)) := by
  induction l1 generalizing a with
  | nil => simp [splitFirstCh] at h
  | cons x xs ih =>
    by_cases hx : x = c
    · simp only [splitFirstCh, if_pos hx] at h
      injection h with h1 h2
      injection h2 with h2
      subst h1; subst h2
      simp [splitFirstCh, hx]
    · simp only [splitFirstCh, if_neg hx] at h
      rcases hr : splitFirstCh c xs with ⟨a0, o0⟩
      rw [hr] at h
      injection h with h1 h2
      subst h1
      cases o0 with
      | none => simp at h2
      | some r0 =>
        injection h2 with h2
        subst h2
        simp only [List.cons_append, splitFirstCh, if_neg hx]
        simp [ih hr]

theorem splitChars_ne_nil (c : Char) (l : List Char) : splitChars c l ≠ [] := by
  induction l with
  | nil => simp [splitChars]
  | cons x xs ih =>
    by_cases hx : x = c
    · simp [splitChars, hx]
    · simp only [splitChars, if_neg hx]
      rcases h : splitChars c xs with _ | ⟨h0, t0⟩
      · exact absurd h ih
      · simp [List.modifyHead]

theorem splitChars_not_mem (c : Char) (l : List Char) (h : c ∉ l) :
    splitChars c l = [l] := by
  induction l with
  | nil => rfl
  | cons x xs ih =>
    simp only [List.mem_cons, not_or] at h
    simp [splitChars, Ne.symm h.1, ih h.2, List.modifyHead]

theorem splitChars_append (c : Char) (l1 l2 : List Char) (h : c ∉ l1) :
    splitChars c (l1 ++ c :: l2) = l1 :: splitChars c l2 := by
  induction l1 with
  | nil => simp [splitChars]
  | cons x xs ih =>
    simp only [List.mem_cons, not_or] at h
    simp only [List.cons_append, splitChars, if_neg (Ne.symm h.1 : x ≠ c),
      List.append_eq]
    rw [ih h.2]
    simp [List.modifyHead]

theorem takeWhile_all {p : Char → Bool} {l : List Char} (h : ∀ x ∈ l, p x) :
    l.takeWhile p = l := by
  induction l with
  | nil => rfl
  | cons x xs ih =>
    simp [List.takeWhile_cons, h x (by simp), ih fun y hy => h y (by simp [hy])]

theorem takeWhile_append_stop {p : Char → Bool} {l1 : List Char} (c : Char)
    (l2 : List Char) (h : ∀ x ∈ l1, p x) (hc : ¬ p c) :
    (l1 ++ c :: l2).takeWhile p = l1 := by
  induction l1 with
  | nil => simp [List.takeWhile_cons, hc]
  | cons x xs ih =>
    simp [List.takeWhile_cons, h x (by simp), ih fun y hy => h y (by simp [hy])]

theorem dropWhile_append_stop {p : Char → Bool} {l1 : List Char} (c : Char)
    (l2 : List Char) (h : ∀ x ∈ l1, p x) (hc : ¬ p c) :
    (l1 ++ c :: l2).dropWhile p = c :: l2 := by
  induction l1 with
  | nil => simp [List.dropWhile_cons, hc]
  | cons x xs ih =>
    simp [List.dropWhile_cons, h x (by simp), ih fun y hy => h y (by simp [hy])]

theorem decodeCharsAux_id {l : List Char} (h : ∀ x ∈ l, x ≠ '+' ∧ x ≠ '%')
    (fuel : Nat) : decodeCharsAux fuel l = l := by
  induction fuel generalizing l with
  | zero => rfl
  | succ n ih =>
    cases l with
    | nil => rfl
    | cons x xs =>
      have hx := h x (by simp)
      have hxs : decodeCharsAux n xs = xs :=
        ih fun y hy => h y (by simp [hy])
      simp [decodeCharsAux, hx.1, hx.2, hxs]

theorem decodeChars_id {l : List Char} (h : ∀ x ∈ l, x ≠ '+' ∧ x ≠ '%') :
    decodeChars l = l := decodeCharsAux_id h l.length

/-! URL model.  `parseUrl` models WHATWG `new URL(...)` restricted to the
absolute http(s) URLs this crawler builds and consumes: scheme up to the
first colon, then `//`, host up to the first of `/ ? #`, pathname up to the
first of `? #`, query up to `#`.  `parseQuery`/`searchParamsGet` model
`new URLSearchParams(url.search).get(key)` including percent-decoding. -/

structure Url where
  scheme : String
  host : String
  pathname : String
  search : String
deriving DecidableEq

def notHostEndCh (c : Char) : Bool := ¬ (c = '/' ∨ c = '?' ∨ c = '#')

def notPathEndCh (c : Char) : Bool := ¬ (c = '?' ∨ c = '#')

def notHashCh (c : Char) : Bool := c ≠ '#'

def parseUrl (s : String) : Option Url :=
  match splitFirstCh ':' s.data with
  | (scheme, some rest) =>
    match rest with
    | '/' :: '/' :: rest2 =>
      let hostChars := rest2.takeWhile notHostEndCh
      let afterHost := rest2.dropWhile notHostEndCh
      if hostChars.isEmpty then none
      else
        match afterHost with
        | '/' :: _ =>
          let path := afterHost.takeWhile notPathEndCh
          let afterPath := afterHost.dropWhile notPathEndCh
          match afterPath with
          | '?' :: r =>
            some ⟨String.mk scheme, String.mk hostChars, String.mk path,
              String.mk (r.takeWhile notHashCh)⟩
          | _ => some ⟨String.mk scheme, String.mk hostChars, String.mk path, ""⟩
        | '?' :: r =>
          some ⟨String.mk scheme, String.mk hostChars, "/",
            String.mk (r.takeWhile notHashCh)⟩
        | _ => some ⟨String.mk scheme, String.mk hostChars, "/", ""⟩
    | _ => none
  | _ => none

def parseQuery (search : String) : List (String × String) :=
  (splitChars '&' search.data).filterMap fun seg =>
    if seg.isEmpty then none
    else
      match splitFirstCh '=' seg with
      | (k, some v) => some (String.mk (decodeChars k), String.mk (decodeChars v))
      | (k, none) => some (String.mk (decodeChars k), "")

def searchParamsGet (search key : String) : Option String :=
  ((parseQuery search).find? fun p => p.1 == key).map (·.2)

/-! URL codec (source lines 166..200). -/

inductive GallType where
  | M
  | MI
  | G
deriving DecidableEq

/-- The gallery-type letter as it appears inside a platform id. -/
def GallType.code : GallType → String
  | .M => "M"
  | .MI => "MI"
  | .G => "G"

/-- Result of `extractGalleryInfoFromUrl` (source lines 80..84); on the
success path `gallType` and `galleryId` are always present, `postNo` is the
raw `no` query value if any. -/
structure DCExtractedInfo where
  gallType : GallType
  galleryId : String
  postNo : Option String
deriving DecidableEq

/-- The path-prefix table of `extractGalleryInfoFromUrl`
(source lines 171..174). -/
def pathGallType (pathname : String) : Option GallType :=
  if jsStartsWith "/mgallery/" pathname then some .M
  else if jsStartsWith "/mini/" pathname then some .MI
  else if jsStartsWith "/board/" pathname then some .G
  else none

/-- `extractGalleryInfoFromUrl` (source lines 167..183).  Throws are
modelled as `Except.error` with the thrown message.  Note that the
JS guard `if (!galleryId) throw` also rejects an empty `id` value. -/
def extractGalleryInfoFromUrl (u : Url) : Except String DCExtractedInfo :=
  match pathGallType u.pathname with
  | none => .error "Invalid DCInside URL format"
  | some gt =>
    let galleryId := searchParamsGet u.search "id"
    let postNo := searchParamsGet u.search "no"
    if jsTruthy galleryId then .ok ⟨gt, galleryId.getD "", postNo⟩
    else .error "Gallery ID not found in URL"

/-- `urlToPlatformId` (source lines 185..188): `DC&gallType&galleryId&postNo`
with a missing post number rendered as the empty string. -/
def urlToPlatformId (u : Url) : Except String String :=
  (extractGalleryInfoFromUrl u).map fun data =>
    "DC&" ++ data.gallType.code ++ "&" ++ data.galleryId ++ "&" ++ data.postNo.getD ""

def DC_HOST : String := "https://gall.dcinside.com"

def GALLOG_HOST : String := "https://gallog.dcinside.com"

/-- `platformIdToUrl` (source lines 190..196).  The destructuring
`const [_, gallType, galleryId, postNo] = platformId.split("&")` can leave
components `undefined`; a JS template literal renders those as the text
"undefined", which `jsTemplate` reproduces. -/
def platformIdToUrl (platformId : String) : String :=
  let parts := splitChars '&' platformId.data
  let gallType := (parts[1]?).map String.mk
  let galleryId := (parts[2]?).map String.mk
  let postNo := (parts[3]?).map String.mk
  let pfx := if gallType = some "M" then "/mgallery"
    else if gallType = some "MI" then "/mini"
    else ""
  DC_HOST ++ pfx ++ "/board/view?id=" ++ jsTemplate galleryId ++ "&no=" ++
    jsTemplate postNo

/-- `splitPlatformId` (source lines 198..200): strip a leading `DC&` and
split the remainder at every ampersand. -/
def splitPlatformId (platformId : String) : List String :=
  let stripped : String :=
    if jsStartsWith "DC&" platformId then String.mk (platformId.data.drop 3)
    else platformId
  (splitChars '&' stripped.data).map String.mk

example :
    parseUrl "https://gall.dcinside.com/mgallery/board/view?id=programming&no=42" =
      some ⟨"https", "gall.dcinside.com", "/mgallery/board/view", "id=programming&no=42"⟩ := by
  decide

example :
    (parseUrl "https://gall.dcinside.com/mgallery/board/view?id=programming&no=42").map
        (fun u => urlToPlatformId u) =
      some (.ok "DC&M&programming&42") := rfl

example : platformIdToUrl "DC&M&programming&42" =
    "https://gall.dcinside.com/mgallery/board/view?id=programming&no=42" := by
  decide

example : splitPlatformId "DC&M&programming&42" = ["M", "programming", "42"] := by
  decide

theorem strExt {s t : String} (h : s.data = t.data) : s = t := by
  cases s; cases t; exact congrArg String.mk h

theorem strMk_data (s : String) : String.mk s.data = s := rfl

theorem strMk_append (l : List Char) (s : String) :
    String.mk l ++ s = String.mk (l ++ s.data) := rfl

theorem splitFirstCh_found (c : Char) (l1 l2 : List Char) (h : c ∉ l1) :
    splitFirstCh c (l1 ++ c :: l2) = (l1, some l2) := by
  induction l1 with
  | nil => simp [splitFirstCh]
  | cons x xs ih =>
    simp only [List.mem_cons, not_or] at h
    simp [splitFirstCh, Ne.symm h.1, ih h.2]

/-- Parsing of a well-formed https URL whose host and path segments contain
no delimiter characters: the model recovers scheme, host, pathname and the
raw query verbatim. -/
theorem parseUrl_split (host path : String) (q : List Char)
    (hh : ∀ x ∈ host.data, notHostEndCh x) (hh0 : host.data ≠ [])
    (hpath : ∀ x ∈ path.data, notPathEndCh x)
    (hq : ∀ x ∈ q, notHashCh x) :
    parseUrl (String.mk ("https".data ++ ':' :: '/' :: '/' ::
        (host.data ++ '/' :: (path.data ++ '?' :: q)))) =
      some ⟨"https", host, String.mk ('/' :: path.data), String.mk q⟩ := by
  have hcolon : (':' : Char) ∉ "https".data := by decide
  have h1 := splitFirstCh_found ':' "https".data
    ('/' :: '/' :: (host.data ++ '/' :: (path.data ++ '?' :: q))) hcolon
  have hslash : ¬ notHostEndCh '/' := by decide
  have hqm : ¬ notPathEndCh '?' := by decide
  have htw := takeWhile_append_stop (p := notHostEndCh) '/'
    (path.data ++ '?' :: q) hh hslash
  have hdw := dropWhile_append_stop (p := notHostEndCh) '/'
    (path.data ++ '?' :: q) hh hslash
  have htp : ('/' :: (path.data ++ '?' :: q)).takeWhile notPathEndCh =
      '/' :: path.data := by
    rw [List.takeWhile_cons]
    simp only [show notPathEndCh '/' = true by decide, if_pos]
    rw [takeWhile_append_stop (p := notPathEndCh) '?' q hpath hqm]
  have hdp : ('/' :: (path.data ++ '?' :: q)).dropWhile notPathEndCh =
      '?' :: q := by
    rw [List.dropWhile_cons]
    simp only [show notPathEndCh '/' = true by decide, if_pos]
    exact dropWhile_append_stop (p := notPathEndCh) '?' q hpath hqm
  simp only [parseUrl, h1, htw, hdw, htp, hdp, takeWhile_all hq]
  simp [List.isEmpty_iff, hh0]

/-- Characters of a decoded `id`/`no` query value that survive the round
trip unchanged: none of the query metacharacters ampersand, percent, plus,
hash. -/
def goodSeg (s : String) : Prop :=
  ∀ c ∈ s.data, c ≠ '&' ∧ c ≠ '%' ∧ c ≠ '+' ∧ c ≠ '#'

instance (s : String) : Decidable (goodSeg s) := by
  unfold goodSeg; infer_instance

theorem goodSeg_no_amp {s : String} (h : goodSeg s) : '&' ∉ s.data :=
  fun hm => (h '&' hm).1 rfl

theorem goodSeg_decode {s : String} (h : goodSeg s) :
    decodeChars s.data = s.data :=
  decodeChars_id fun c hc => ⟨(h c hc).2.2.1, (h c hc).2.1⟩

theorem strData_mk (l : List Char) : (String.mk l).data = l := rfl

theorem parseQuery_idno (gid pno : String) (hg : goodSeg gid) (hn : goodSeg pno) :
    parseQuery (String.mk ("id=".data ++ gid.data ++ '&' :: ("no=".data ++ pno.data))) =
      [("id", gid), ("no", pno)] := by
  have hamp1 : '&' ∉ "id=".data ++ gid.data := by
    intro hm
    rcases List.mem_append.1 hm with hm | hm
    · revert hm; decide
    · exact goodSeg_no_amp hg hm
  have hamp2 : '&' ∉ "no=".data ++ pno.data := by
    intro hm
    rcases List.mem_append.1 hm with hm | hm
    · revert hm; decide
    · exact goodSeg_no_amp hn hm
  have hsplit : splitChars '&' ("id=".data ++ gid.data ++ '&' :: ("no=".data ++ pno.data)) =
      ["id=".data ++ gid.data, "no=".data ++ pno.data] := by
    have h0 := splitChars_append '&' ("id=".data ++ gid.data) ("no=".data ++ pno.data) hamp1
    rw [splitChars_not_mem '&' _ hamp2] at h0
    simpa [List.append_assoc] using h0
  have hfid : splitFirstCh '=' ("id=".data ++ gid.data) = (['i', 'd'], some gid.data) := by
    have h1 : "id=".data ++ gid.data = ['i', 'd'] ++ '=' :: gid.data := rfl
    rw [h1, splitFirstCh_found '=' ['i', 'd'] gid.data (by decide)]
  have hfno : splitFirstCh '=' ("no=".data ++ pno.data) = (['n', 'o'], some pno.data) := by
    have h1 : "no=".data ++ pno.data = ['n', 'o'] ++ '=' :: pno.data := rfl
    rw [h1, splitFirstCh_found '=' ['n', 'o'] pno.data (by decide)]
  have hne1 : ("id=".data ++ gid.data).isEmpty = false := rfl
  have hne2 : ("no=".data ++ pno.data).isEmpty = false := rfl
  simp only [parseQuery, strData_mk]
  rw [hsplit]
  simp only [List.filterMap_cons, List.filterMap_nil, hne1, hne2, hfid, hfno,
    Bool.false_eq_true, ite_false]
  simp [goodSeg_decode hg, goodSeg_decode hn, strMk_data]
  exact ⟨by decide, by decide⟩

theorem extract_idno (pathStr : String) (gt : GallType)
    (hp : pathGallType pathStr = some gt) (gid pno : String) (hgid : gid ≠ "")
    (hg : goodSeg gid) (hn : goodSeg pno) :
    extractGalleryInfoFromUrl ⟨"https", "gall.dcinside.com", pathStr,
        String.mk ("id=".data ++ gid.data ++ '&' :: ("no=".data ++ pno.data))⟩ =
      .ok ⟨gt, gid, some pno⟩ := by
  simp only [extractGalleryInfoFromUrl, hp]
  have hq := parseQuery_idno gid pno hg hn
  simp only [searchParamsGet, hq]
  simp [List.find?, jsTruthy, hgid]

/-- Inversion of a successful `extractGalleryInfoFromUrl`: the path prefix
resolved, the `id` parameter was present and non-empty, and `postNo` is the
raw `no` parameter. -/
theorem extract_ok_inv {u : Url} {info : DCExtractedInfo}
    (hx : extractGalleryInfoFromUrl u = .ok info) :
    pathGallType u.pathname = some info.gallType ∧
    searchParamsGet u.search "id" = some info.galleryId ∧
    info.galleryId ≠ "" ∧
    searchParamsGet u.search "no" = info.postNo := by
  unfold extractGalleryInfoFromUrl at hx
  rcases hpg : pathGallType u.pathname with _ | g0 <;> rw [hpg] at hx
  · exact absurd hx (by simp)
  · rcases hid : searchParamsGet u.search "id" with _ | s <;> rw [hid] at hx
    · simp [jsTruthy] at hx
    · by_cases hs : s = ""
      · subst hs; simp [jsTruthy] at hx
      · dsimp only [Option.getD] at hx
        rw [if_pos (by simp [jsTruthy, hs] : jsTruthy (some s) = true)] at hx
        injection hx with hx
        subst hx
        dsimp only
        exact ⟨rfl, rfl, hs, rfl⟩

theorem urlToPlatformId_ok {u : Url} {gt : GallType} {gid pno : String}
    (hx : extractGalleryInfoFromUrl u = .ok ⟨gt, gid, some pno⟩) :
    urlToPlatformId u = .ok ("DC&" ++ gt.code ++ "&" ++ gid ++ "&" ++ pno) := by
  simp [urlToPlatformId, hx, Except.map]

theorem platformIdToUrl_pid (gt : GallType) (pfxS : String) (gid pno : String)
    (hpfx : pfxS = if gt = .M then "/mgallery" else if gt = .MI then "/mini" else "")
    (hg : '&' ∉ gid.data) (hn : '&' ∉ pno.data) :
    platformIdToUrl ("DC&" ++ gt.code ++ "&" ++ gid ++ "&" ++ pno) =
      DC_HOST ++ pfxS ++ "/board/view?id=" ++ gid ++ "&no=" ++ pno := by
  have hcode : '&' ∉ gt.code.data := by cases gt <;> decide
  have hdata : ("DC&" ++ gt.code ++ "&" ++ gid ++ "&" ++ pno).data =
      ['D', 'C'] ++ '&' :: (gt.code.data ++ '&' :: (gid.data ++ '&' :: pno.data)) := by
    simp [strData_append, List.append_assoc]
  have hsplit : splitChars '&' (("DC&" ++ gt.code ++ "&" ++ gid ++ "&" ++ pno).data) =
      [['D', 'C'], gt.code.data, gid.data, pno.data] := by
    rw [hdata, splitChars_append '&' ['D', 'C'] _ (by decide),
      splitChars_append '&' gt.code.data _ hcode,
      splitChars_append '&' gid.data _ hg,
      splitChars_not_mem '&' pno.data hn]
  subst hpfx
  simp only [platformIdToUrl, hsplit]
  cases gt <;> simp [jsTemplate, strMk_data, GallType.code]

/-- Parsing the URL rebuilt by `platformIdToUrl`: the model recovers the
canonical host, the full view pathname and the raw query. -/
theorem parseUrl_view (pfxS pathS trimmedS : String) (gid pno : String)
    (hcase : (pfxS = "/mgallery" ∧ pathS = "/mgallery/board/view" ∧
                trimmedS = "mgallery/board/view") ∨
             (pfxS = "/mini" ∧ pathS = "/mini/board/view" ∧
                trimmedS = "mini/board/view") ∨
             (pfxS = "" ∧ pathS = "/board/view" ∧ trimmedS = "board/view"))
    (hg : goodSeg gid) (hn : goodSeg pno) :
    parseUrl (DC_HOST ++ pfxS ++ "/board/view?id=" ++ gid ++ "&no=" ++ pno) =
      some ⟨"https", "gall.dcinside.com", pathS,
        String.mk ("id=".data ++ gid.data ++ '&' :: ("no=".data ++ pno.data))⟩ := by
  have hid3 : ∀ y ∈ ("id=" : String).data, notHashCh y := by decide
  have hno3 : ∀ y ∈ ("no=" : String).data, notHashCh y := by decide
  have hq : ∀ x ∈ "id=".data ++ gid.data ++ '&' :: ("no=".data ++ pno.data),
      notHashCh x := by
    intro x hx
    rcases List.mem_append.1 hx with h12 | hrest
    · rcases List.mem_append.1 h12 with h1 | h2
      · exact hid3 x h1
      · simpa [notHashCh] using (hg x h2).2.2.2
    rcases List.mem_cons.1 hrest with h3 | h45
    · subst h3; decide
    rcases List.mem_append.1 h45 with h4 | h5
    · exact hno3 x h4
    · simpa [notHashCh] using (hn x h5).2.2.2
  have hhost : ∀ x ∈ ("gall.dcinside.com" : String).data, notHostEndCh x := by decide
  have hhost0 : ("gall.dcinside.com" : String).data ≠ [] := by decide
  rcases hcase with ⟨h1, h2, h3⟩ | ⟨h1, h2, h3⟩ | ⟨h1, h2, h3⟩ <;> subst h1 <;>
    subst h2 <;> subst h3
  · have hpath : ∀ x ∈ ("mgallery/board/view" : String).data, notPathEndCh x := by
      decide
    have hstr : DC_HOST ++ "/mgallery" ++ "/board/view?id=" ++ gid ++ "&no=" ++ pno =
        String.mk ("https".data ++ ':' :: '/' :: '/' ::
          ("gall.dcinside.com".data ++ '/' :: ("mgallery/board/view".data ++ '?' ::
            ("id=".data ++ gid.data ++ '&' :: ("no=".data ++ pno.data))))) := by
      apply strExt
      simp [strData_append, strData_mk, DC_HOST, List.append_assoc]
    rw [hstr,
      parseUrl_split "gall.dcinside.com" "mgallery/board/view" _ hhost hhost0 hpath hq,
      show String.mk ('/' :: ("mgallery/board/view" : String).data) =
        "/mgallery/board/view" from by decide]
  · have hpath : ∀ x ∈ ("mini/board/view" : String).data, notPathEndCh x := by decide
    have hstr : DC_HOST ++ "/mini" ++ "/board/view?id=" ++ gid ++ "&no=" ++ pno =
        String.mk ("https".data ++ ':' :: '/' :: '/' ::
          ("gall.dcinside.com".data ++ '/' :: ("mini/board/view".data ++ '?' ::
            ("id=".data ++ gid.data ++ '&' :: ("no=".data ++ pno.data))))) := by
      apply strExt
      simp [strData_append, strData_mk, DC_HOST, List.append_assoc]
    rw [hstr,
      parseUrl_split "gall.dcinside.com" "mini/board/view" _ hhost hhost0 hpath hq,
      show String.mk ('/' :: ("mini/board/view" : String).data) =
        "/mini/board/view" from by decide]
  · have hpath : ∀ x ∈ ("board/view" : String).data, notPathEndCh x := by decide
    have hstr : DC_HOST ++ "" ++ "/board/view?id=" ++ gid ++ "&no=" ++ pno =
        String.mk ("https".data ++ ':' :: '/' :: '/' ::
          ("gall.dcinside.com".data ++ '/' :: ("board/view".data ++ '?' ::
            ("id=".data ++ gid.data ++ '&' :: ("no=".data ++ pno.data))))) := by
      apply strExt
      simp [strData_append, strData_mk, DC_HOST, List.append_assoc]
    rw [hstr,
      parseUrl_split "gall.dcinside.com" "board/view" _ hhost hhost0 hpath hq,
      show String.mk ('/' :: ("board/view" : String).data) = "/board/view" from by
        decide]

/-- Claim C1 (amended).  For every valid DCInside post view URL u (path
prefix mgallery, mini or board, with an id and a no query parameter) whose
decoded id and no values contain none of the query metacharacters
ampersand, percent, plus and hash, platformIdToUrl(urlToPlatformId(u))
yields a URL from which extractGalleryInfoFromUrl produces the same
gallType, galleryId and postNo as it produces for u. -/
theorem c1_round_trip_amended (u : Url) (gt : GallType) (gid pno : String)
    (hx : extractGalleryInfoFromUrl u = .ok ⟨gt, gid, some pno⟩)
    (hg : goodSeg gid) (hn : goodSeg pno) :
    ∃ pid u2, urlToPlatformId u = .ok pid ∧
      parseUrl (platformIdToUrl pid) = some u2 ∧
      extractGalleryInfoFromUrl u2 = .ok ⟨gt, gid, some pno⟩ := by
  have hinv := extract_ok_inv hx
  have hgid : gid ≠ "" := hinv.2.2.1
  refine ⟨"DC&" ++ gt.code ++ "&" ++ gid ++ "&" ++ pno, ?_⟩
  cases gt with
  | M =>
    refine ⟨⟨"https", "gall.dcinside.com", "/mgallery/board/view",
      String.mk ("id=".data ++ gid.data ++ '&' :: ("no=".data ++ pno.data))⟩,
      urlToPlatformId_ok hx, ?_, ?_⟩
    · rw [platformIdToUrl_pid .M "/mgallery" gid pno (by decide)
        (goodSeg_no_amp hg) (goodSeg_no_amp hn)]
      exact parseUrl_view "/mgallery" "/mgallery/board/view" "mgallery/board/view"
        gid pno (Or.inl ⟨rfl, rfl, rfl⟩) hg hn
    · exact extract_idno "/mgallery/board/view" .M (by decide) gid pno hgid hg hn
  | MI =>
    refine ⟨⟨"https", "gall.dcinside.com", "/mini/board/view",
      String.mk ("id=".data ++ gid.data ++ '&' :: ("no=".data ++ pno.data))⟩,
      urlToPlatformId_ok hx, ?_, ?_⟩
    · rw [platformIdToUrl_pid .MI "/mini" gid pno (by decide)
        (goodSeg_no_amp hg) (goodSeg_no_amp hn)]
      exact parseUrl_view "/mini" "/mini/board/view" "mini/board/view"
        gid pno (Or.inr (Or.inl ⟨rfl, rfl, rfl⟩)) hg hn
    · exact extract_idno "/mini/board/view" .MI (by decide) gid pno hgid hg hn
  | G =>
    refine ⟨⟨"https", "gall.dcinside.com", "/board/view",
      String.mk ("id=".data ++ gid.data ++ '&' :: ("no=".data ++ pno.data))⟩,
      urlToPlatformId_ok hx, ?_, ?_⟩
    · rw [platformIdToUrl_pid .G "" gid pno (by decide)
        (goodSeg_no_amp hg) (goodSeg_no_amp hn)]
      exact parseUrl_view "" "/board/view" "board/view"
        gid pno (Or.inr (Or.inr ⟨rfl, rfl, rfl⟩)) hg hn
    · exact extract_idno "/board/view" .G (by decide) gid pno hgid hg hn

/-- Witness for claim C1 at scenario S1 of the specification: the URL
of post 42 of the programming minor gallery. -/
theorem c1_round_trip_witness :
    extractGalleryInfoFromUrl ⟨"https", "gall.dcinside.com",
        "/mgallery/board/view", "id=programming&no=42"⟩ =
      .ok ⟨.M, "programming", some "42"⟩ ∧
    ∃ pid u2,
      urlToPlatformId ⟨"https", "gall.dcinside.com", "/mgallery/board/view",
          "id=programming&no=42"⟩ = .ok pid ∧
      parseUrl (platformIdToUrl pid) = some u2 ∧
      extractGalleryInfoFromUrl u2 = .ok ⟨.M, "programming", some "42"⟩ :=
  ⟨rfl, c1_round_trip_amended _ .M "programming" "42" rfl (by decide) (by decide)⟩

/-- Counterexample to claim C1 as stated: the view URL with the
percent-encoded gallery id a%26b (decoded value containing an ampersand)
and post number 42 is a valid post view URL, but the rebuilt URL re-decodes
to gallery a with post number b. -/
theorem c1_round_trip_cex :
    extractGalleryInfoFromUrl ⟨"https", "gall.dcinside.com", "/board/view",
        "id=a%26b&no=42"⟩ = .ok ⟨.G, "a&b", some "42"⟩ ∧
    urlToPlatformId ⟨"https", "gall.dcinside.com", "/board/view",
        "id=a%26b&no=42"⟩ = .ok "DC&G&a&b&42" ∧
    parseUrl (platformIdToUrl "DC&G&a&b&42") =
      some ⟨"https", "gall.dcinside.com", "/board/view", "id=a&no=b"⟩ ∧
    extractGalleryInfoFromUrl ⟨"https", "gall.dcinside.com", "/board/view",
        "id=a&no=b"⟩ = .ok ⟨.G, "a", some "b"⟩ ∧
    (⟨.G, "a", some "b"⟩ : DCExtractedInfo) ≠ ⟨.G, "a&b", some "42"⟩ :=
  ⟨rfl, rfl, rfl, rfl, by decide⟩

/-- Claim C10.  A URL with a valid DCInside path prefix and an id query
parameter but no no parameter does not make urlToPlatformId throw: it
returns the platform id DC&gallType&galleryId& with an empty post-number
segment. -/
theorem c10_missing_no_param (u : Url) (gt : GallType) (gid : String)
    (hpath : pathGallType u.pathname = some gt)
    (hid : searchParamsGet u.search "id" = some gid) (hne : gid ≠ "")
    (hno : searchParamsGet u.search "no" = none) :
    urlToPlatformId u = .ok ("DC&" ++ gt.code ++ "&" ++ gid ++ "&") := by
  have hex : extractGalleryInfoFromUrl u = .ok ⟨gt, gid, none⟩ := by
    simp [extractGalleryInfoFromUrl, hpath, hid, hno, jsTruthy, hne]
  have h1 : urlToPlatformId u = .ok ("DC&" ++ gt.code ++ "&" ++ gid ++ "&" ++ "") := by
    simp [urlToPlatformId, hex, Except.map]
  rw [h1]
  have h2 : ("DC&" ++ gt.code ++ "&" ++ gid ++ "&" ++ "" : String) =
      "DC&" ++ gt.code ++ "&" ++ gid ++ "&" := strExt (by simp [strData_append])
  rw [h2]

/-- Witness for claim C10: a gallery listing URL with an id but no post
number maps to a platform id with an empty trailing segment. -/
theorem c10_missing_no_param_witness :
    urlToPlatformId ⟨"https", "gall.dcinside.com", "/board/lists/",
        "id=programming"⟩ = .ok "DC&G&programming&" :=
  c10_missing_no_param _ .G "programming" (by decide) (by decide) (by decide)
    (by decide)

/-! HTTP retry model (`sendRequest`, source lines 242..310).  One attempt is
one `axios(config)` call; the scripted `HttpOutcome` list gives, per attempt,
either the HTTP status of the response (axios resolves for every status
because of `validateStatus: () => true`) or a transport-level failure in
which no response arrives.  Crucially, the source sets `this.retryCount = 0`
immediately after `await axios(config)` — before the status checks — so the
counter is reset on every received response, failing statuses included. -/

inductive HttpOutcome where
  | resp (status : Nat)
  | netErr
deriving DecidableEq

instance : DecidableEq (Except String Unit) := fun a b =>
  match a, b with
  | .ok x, .ok y => isTrue (by cases x; cases y; rfl)
  | .error x, .error y =>
    if h : x = y then isTrue (by rw [h]) else isFalse fun hc => h (by injection hc)
  | .ok _, .error _ => isFalse fun h => Except.noConfusion h
  | .error _, .ok _ => isFalse fun h => Except.noConfusion h

/-- Trace of one `sendRequest` call tree: total number of attempts issued,
the sleeps performed before each retry (in milliseconds, in order), and the
final outcome (`ok` for a delivered response, `error` for a propagated
throw). -/
structure SendTrace where
  attempts : Nat
  sleeps : List Nat
  result : Except String Unit
deriving DecidableEq

/-- The thrown message for a failing status (source lines 273..281). -/
def statusErrorMsg (st : Nat) : String :=
  if st = 429 then "Rate limit exceeded"
  else if st = 404 then "Not Found"
  else "HTTP error"

/-- `sendRequest` over a finite script of attempt outcomes, carrying the
instance field `retryCount` (`rc`) and the constant `maxRetries` (`mr`, 3 in
the source).  A received response resets `rc` to 0 before any status check;
a status of 404 is `isNotFound` and never retried; any other failure retries
with sleep `2 ^ rc' * 1000` after incrementing, while `rc' < mr`; a
transport error leaves the counter untouched before the same retry logic. -/
def sendRequest (mr : Nat) : Nat → List HttpOutcome → SendTrace
  | _, [] => ⟨0, [], .error "script exhausted"⟩
  | rc, o :: rest =>
    match o with
    | .resp st =>
      let rc0 := 0
      if st = 429 ∨ st ≥ 400 then
        if ¬ (st = 404) ∧ rc0 < mr then
          let rc1 := rc0 + 1
          let t := sendRequest mr rc1 rest
          ⟨t.attempts + 1, 2 ^ rc1 * 1000 :: t.sleeps, t.result⟩
        else ⟨1, [], .error (statusErrorMsg st)⟩
      else ⟨1, [], .ok ()⟩
    | .netErr =>
      if rc < mr then
        let rc1 := rc + 1
        let t := sendRequest mr rc1 rest
        ⟨t.attempts + 1, 2 ^ rc1 * 1000 :: t.sleeps, t.result⟩
      else ⟨1, [], .error "transport error"⟩

/-- Claim C2 is wrong about the code: because `this.retryCount = 0` runs for
every received response before the status is validated, HTTP-status
failures are retried with a constant 2 s backoff and without ever counting
toward `maxRetries`.  With four 500 responses followed by a 200 (N = 4,
where the claim promises exactly `min(N+1, 4) = 4` attempts, sleeps
2 s, 4 s, 8 s, then a propagated error), the engine issues five attempts
with four 2 s sleeps and succeeds.  The claimed bounded exponential
schedule does hold for transport-level failures, as the second conjunct
shows, which documents that the counter-reset placement is the slip. -/
theorem c2_retry_schedule_code_bug :
    sendRequest 3 0 [.resp 500, .resp 500, .resp 500, .resp 500, .resp 200] =
      ⟨5, [2000, 2000, 2000, 2000], .ok ()⟩ ∧
    sendRequest 3 0 [.resp 500, .resp 500, .resp 500, .resp 500, .resp 200]
      ≠ ⟨4, [2000, 4000, 8000], .error (statusErrorMsg 500)⟩ ∧
    sendRequest 3 0 [.netErr, .netErr, .netErr, .netErr, .resp 200] =
      ⟨4, [2000, 4000, 8000], .error "transport error"⟩ := by
  refine ⟨rfl, ?_, rfl⟩
  decide

/-! Construction and first-URL computation (constructor, source lines
123..164, and `getFirstUrl`, source lines 334..375).  The environment
variables `DC_KEYWORD_CRAWLER` / `DC_GALLOG_CRAWLER` and the options are
explicit inputs.  An `Except`-valued result models whether the TS code
throws. -/

structure CrawlerEnv where
  keywordId : Option String
  gallogId : Option String
deriving DecidableEq

structure CrawlerOptions where
  id : String
  sid : String
  cid : Option String
  url : Option String
  keyword : Option String
  target : Option String
deriving DecidableEq

/-- The mode actually selected by the branch order of `getFirstUrl`:
keyword mode wins over gallog mode, then the legacy `cid` branches, then
the raw-URL fallback. -/
inductive CrawlerMode where
  | keyword
  | gallog
  | legacyKeyword
  | legacyGallog
  | raw
deriving DecidableEq

def resolveMode (env : CrawlerEnv) (o : CrawlerOptions) : CrawlerMode :=
  if jsTruthy env.keywordId ∧ env.keywordId = some o.sid then .keyword
  else if jsTruthy env.gallogId ∧ env.gallogId = some o.sid then .gallog
  else if o.cid = some "1" then .legacyKeyword
  else if o.cid = some "2" then .legacyGallog
  else .raw

/-- Upper-case hexadecimal digit (for values below 16). -/
def hexDigitUpper (n : Nat) : Char :=
  if n < 10 then Char.ofNat (48 + n) else Char.ofNat (55 + n)

/-- JS `encodeURIComponent` on one character, faithful for the ASCII range
(the crawler only feeds it unreserved ASCII in the verified statements;
multi-byte UTF-8 expansion is not modelled). -/
def encChar (c : Char) : List Char :=
  let n := c.toNat
  if (48 ≤ n ∧ n ≤ 57) ∨ (65 ≤ n ∧ n ≤ 90) ∨ (97 ≤ n ∧ n ≤ 122) ∨
      n = 45 ∨ n = 95 ∨ n = 46 ∨ n = 33 ∨ n = 126 ∨ n = 42 ∨ n = 39 ∨
      n = 40 ∨ n = 41 then [c]
  else ['%', hexDigitUpper (c.toNat / 16 % 16), hexDigitUpper (c.toNat % 16)]

def encodeURIComponent (s : String) : String :=
  String.mk (s.data.map encChar).flatten

/-- JS `url.replace(/\/$/, "")`: strip one trailing slash. -/
def rstripSlash (s : String) : String :=
  if s.data.getLast? = some '/' then String.mk s.data.dropLast else s

/-- `getFirstUrl` (source lines 334..375): the first listing URL of the
run, or the thrown configuration error. -/
def getFirstUrl (env : CrawlerEnv) (o : CrawlerOptions) : Except String String :=
  if jsTruthy env.keywordId ∧ env.keywordId = some o.sid then
    if ¬ jsTruthy o.keyword then .error "Keyword is required"
    else if ¬ jsTruthy o.target then .error "Target gallery ID is required"
    else .ok (DC_HOST ++ "/board/lists/?id=" ++ jsTemplate o.target ++
      "&s_type=search_subject_memo&s_keyword=" ++
      encodeURIComponent (o.keyword.getD ""))
  else if jsTruthy env.gallogId ∧ env.gallogId = some o.sid then
    if ¬ jsTruthy o.url then .error "URL is required for gallog crawler"
    else .ok (rstripSlash (o.url.getD "") ++ "/posting")
  else if o.cid = some "1" then
    if ¬ jsTruthy o.keyword ∨ ¬ jsTruthy o.target then
      .error "Keyword and target required"
    else .ok (DC_HOST ++ "/board/lists/?id=" ++ jsTemplate o.target ++
      "&s_type=search_subject_memo&s_keyword=" ++
      encodeURIComponent (o.keyword.getD ""))
  else if o.cid = some "2" then
    if ¬ jsTruthy o.url then .error "URL is required for gallog crawler"
    else .ok (rstripSlash (o.url.getD "") ++ "/posting")
  else if jsTruthy o.url then .ok (o.url.getD "")
  else if ¬ jsTruthy o.target then .error "Either URL or target required"
  else .ok (DC_HOST ++ "/board/lists/?id=" ++ jsTemplate o.target)

structure ConstructedCrawler where
  baseUrl : String
deriving DecidableEq

/-- The constructor (source lines 123..164).  In keyword and gallog mode it
never evaluates `getFirstUrl`; otherwise it evaluates it inside
`try ... catch` and falls back to the default host on any throw, so the
modelled constructor never returns an error. -/
def constructCrawler (env : CrawlerEnv) (o : CrawlerOptions) :
    Except String ConstructedCrawler :=
  if jsTruthy env.keywordId ∧ env.keywordId = some o.sid then .ok ⟨DC_HOST⟩
  else if jsTruthy env.gallogId ∧ env.gallogId = some o.sid then .ok ⟨GALLOG_HOST⟩
  else
    match getFirstUrl env o with
    | .ok s =>
      match parseUrl s with
      | some u => .ok ⟨u.scheme ++ "://" ++ u.host⟩
      | none => .ok ⟨DC_HOST⟩
    | .error _ => .ok ⟨DC_HOST⟩

/-- The three missing-required-input situations named by claim C8, relative
to the selected mode. -/
def missingModeInput (env : CrawlerEnv) (o : CrawlerOptions) : Prop :=
  (resolveMode env o = .keyword ∧ (¬ jsTruthy o.keyword ∨ ¬ jsTruthy o.target)) ∨
  (resolveMode env o = .gallog ∧ ¬ jsTruthy o.url) ∨
  (resolveMode env o = .raw ∧ ¬ jsTruthy o.url ∧ ¬ jsTruthy o.target)

/-- Counterexample to claim C8 as stated: with keyword mode selected and no
keyword supplied, construction succeeds (the constructor catches the config
error and falls back to the default host); only `getFirstUrl` — first
evaluated during the run, at the start of `search()` — throws. -/
theorem c8_construction_cex :
    constructCrawler ⟨some "K", none⟩ ⟨"scen", "K", none, none, none, none⟩ =
      .ok ⟨DC_HOST⟩ ∧
    getFirstUrl ⟨some "K", none⟩ ⟨"scen", "K", none, none, none, none⟩ =
      .error "Keyword is required" := ⟨rfl, rfl⟩

/-- Claim C8 (amended).  When the selected mode misses a required input —
keyword mode without keyword or target, gallog mode without url, or no mode
resolved and neither url nor target supplied — the configuration error is
raised by `getFirstUrl`, which the run evaluates when `search()` starts;
construction itself always succeeds, falling back to the default host. -/
theorem c8_config_error_amended (env : CrawlerEnv) (o : CrawlerOptions)
    (h : missingModeInput env o) :
    (∃ e, getFirstUrl env o = .error e) ∧
    ∃ c, constructCrawler env o = .ok c := by
  rcases h with ⟨hm, hmiss⟩ | ⟨hm, hmiss⟩ | ⟨hm, hm1, hm2⟩
  · have hk : jsTruthy env.keywordId ∧ env.keywordId = some o.sid := by
      by_contra hk
      unfold resolveMode at hm
      rw [if_neg hk] at hm
      split_ifs at hm
    refine ⟨?_, ⟨⟨DC_HOST⟩, by unfold constructCrawler; rw [if_pos hk]⟩⟩
    by_cases hkw : jsTruthy o.keyword
    · have htg : ¬ jsTruthy o.target = true := by
        rcases hmiss with hmiss | hmiss
        · exact absurd hkw hmiss
        · exact hmiss
      refine ⟨"Target gallery ID is required", ?_⟩
      unfold getFirstUrl
      rw [if_pos hk, if_neg (not_not_intro hkw), if_pos htg]
    · refine ⟨"Keyword is required", ?_⟩
      unfold getFirstUrl
      rw [if_pos hk, if_pos hkw]
  · have hk : ¬ (jsTruthy env.keywordId ∧ env.keywordId = some o.sid) := by
      intro hk
      unfold resolveMode at hm
      rw [if_pos hk] at hm
      simp at hm
    have hg : jsTruthy env.gallogId ∧ env.gallogId = some o.sid := by
      by_contra hg
      unfold resolveMode at hm
      rw [if_neg hk, if_neg hg] at hm
      split_ifs at hm
    refine ⟨⟨"URL is required for gallog crawler", ?_⟩,
      ⟨⟨GALLOG_HOST⟩, ?_⟩⟩
    · unfold getFirstUrl
      rw [if_neg hk, if_pos hg, if_pos hmiss]
    · unfold constructCrawler
      rw [if_neg hk, if_pos hg]
  · have hk : ¬ (jsTruthy env.keywordId ∧ env.keywordId = some o.sid) := by
      intro hk
      unfold resolveMode at hm
      rw [if_pos hk] at hm
      simp at hm
    have hg : ¬ (jsTruthy env.gallogId ∧ env.gallogId = some o.sid) := by
      intro hg
      unfold resolveMode at hm
      rw [if_neg hk, if_pos hg] at hm
      simp at hm
    have hc1 : ¬ o.cid = some "1" := by
      intro hc
      unfold resolveMode at hm
      rw [if_neg hk, if_neg hg, if_pos hc] at hm
      simp at hm
    have hc2 : ¬ o.cid = some "2" := by
      intro hc
      unfold resolveMode at hm
      rw [if_neg hk, if_neg hg, if_neg hc1, if_pos hc] at hm
      simp at hm
    have herr : getFirstUrl env o = .error "Either URL or target required" := by
      unfold getFirstUrl
      rw [if_neg hk, if_neg hg, if_neg hc1, if_neg hc2, if_neg hm1, if_pos hm2]
    refine ⟨⟨_, herr⟩, ⟨⟨DC_HOST⟩, ?_⟩⟩
    unfold constructCrawler
    rw [if_neg hk, if_neg hg, herr]

/-- Witness for claim C8 at a concrete keyword-mode configuration with a
missing keyword. -/
theorem c8_config_error_witness :
    (∃ e, getFirstUrl ⟨some "K", none⟩ ⟨"scen", "K", none, none, none,
      some "gallery"⟩ = .error e) ∧
    ∃ c, constructCrawler ⟨some "K", none⟩ ⟨"scen", "K", none, none, none,
      some "gallery"⟩ = .ok c :=
  c8_config_error_amended _ _ (Or.inl ⟨rfl, Or.inl (by decide)⟩)

/-! Listing rows and the walker (`search` / `getPostList`, source lines
473..674).  A listing row is abstracted to exactly the fields the walker
reads: the data-no attribute, the trimmed text of the number cell, the
resolved absolute URL of its selected anchor (`none` when no href was found
or absolute resolution failed, both of which the source skips), and the
parsed written-at instant.  Instants are abstract integers — only their
order matters for the `dateFrom` cutoff — and an unparsable date carries
`none`, matching the JS comparison `writtenAt < dateFrom` being false for
an invalid `Date`. -/

structure Row where
  dataNo : Option String
  gallNum : String
  url : Option Url
  writtenAt : Option Int
deriving DecidableEq

/-- The notice marker looked up in the number cell (source line 597). -/
def noticeStr : String := "공지"

/-- The regular expression `^[0-9]+$` of source line 596. -/
def isNumericStr (s : String) : Bool := s.data ≠ [] ∧ s.data.all Char.isDigit

/-- Post-row classification (source lines 594..598): a truthy data-no
attribute, or a purely numeric number cell not containing the notice
marker. -/
def isPostRow (r : Row) : Bool :=
  jsTruthy r.dataNo || (isNumericStr r.gallNum && ! jsIncludes noticeStr r.gallNum)

/-- Date cutoff of source line 643: strictly earlier than `dateFrom`,
false when either instant is missing. -/
def dateCutoff (dateFrom : Option Int) (r : Row) : Bool :=
  match dateFrom, r.writtenAt with
  | some d, some w => w < d
  | _, _ => false

inductive RowAct where
  | skip
  | stop
  | queue (pid : String)
  | err (e : String)
deriving DecidableEq

/-- What `getPostList` does with one row (source lines 591..668), given the
persisted platform post ids of this scenario: skip non-post rows and rows
without a resolvable link, stop at the date cutoff, compute the platform id
(its InvalidUrlError throw propagates — the call at line 646 is not
guarded), stop when the repository already has the id, otherwise queue. -/
def rowAct (repoPosts : List String) (dateFrom : Option Int) (r : Row) : RowAct :=
  if ¬ isPostRow r then .skip
  else
    match r.url with
    | none => .skip
    | some u =>
      if dateCutoff dateFrom r then .stop
      else
        match urlToPlatformId u with
        | .error e => .err e
        | .ok pid => if pid ∈ repoPosts then .stop else .queue pid

/-- `this.postIdSet.add(...)` on the insertion-ordered JS `Set`. -/
def addPostId (ids : List String) (pid : String) : List String :=
  if pid ∈ ids then ids else ids ++ [pid]

/-- `getPostList` over one row batch: rows in order, accumulating the
in-run id set; the Bool is the should-continue flag (false on reaching the
incremental frontier or the date cutoff). -/
def getPostList (repoPosts : List String) (dateFrom : Option Int) :
    List Row → List String → Except String (Bool × List String)
  | [], ids => .ok (true, ids)
  | r :: rs, ids =>
    match rowAct repoPosts dateFrom r with
    | .skip => getPostList repoPosts dateFrom rs ids
    | .stop => .ok (false, ids)
    | .err e => .error e
    | .queue pid => getPostList repoPosts dateFrom rs (addPostId ids pid)

/-- One pagination block as traversed by `search`: the rows of the URL the
block was entered with, then the rows behind each class-less per-page link
of the paging bar. -/
structure Block where
  firstPage : List Row
  innerPages : List (List Row)
deriving DecidableEq

def pagesOfBlock (b : Block) : List (List Row) := b.firstPage :: b.innerPages

/-- Page-after-page ingestion inside one block, honouring the stop flag. -/
def runPages (repoPosts : List String) (dateFrom : Option Int) :
    List (List Row) → List String → Except String (Bool × List String)
  | [], ids => .ok (true, ids)
  | p :: ps, ids => do
    let r1 ← getPostList repoPosts dateFrom p ids
    if r1.1 then runPages repoPosts dateFrom ps r1.2 else .ok (false, r1.2)

/-- `search` (source lines 473..520) over a script of pagination blocks:
per block the first page then the inner pages are ingested; a stop signal
ends the walk, and after the last scripted block the next-block link is
absent and the loop ends. -/
def search (repoPosts : List String) (dateFrom : Option Int) :
    List Block → List String → Except String (List String)
  | [], ids => .ok ids
  | b :: bs, ids => do
    let r1 ← runPages repoPosts dateFrom (pagesOfBlock b) ids
    if r1.1 then search repoPosts dateFrom bs r1.2 else .ok r1.2

/-- All rows of the walk, flattened in traversal order. -/
def rowsOfBlocks (blocks : List Block) : List Row :=
  (blocks.map fun b => (pagesOfBlock b).flatten).flatten

theorem getPostList_append (repoPosts : List String) (dateFrom : Option Int)
    (rows1 rows2 : List Row) (ids : List String) :
    getPostList repoPosts dateFrom (rows1 ++ rows2) ids =
      (do
        let r1 ← getPostList repoPosts dateFrom rows1 ids
        if r1.1 then getPostList repoPosts dateFrom rows2 r1.2
        else Except.ok (false, r1.2)) := by
  induction rows1 generalizing ids with
  | nil => simp [getPostList, Bind.bind, Except.bind]
  | cons r rs ih =>
    simp only [List.cons_append, getPostList]
    cases h : rowAct repoPosts dateFrom r with
    | skip => simp [ih]
    | stop => simp [Bind.bind, Except.bind]
    | queue pid => simp [ih]
    | err e => simp [Bind.bind, Except.bind]

theorem runPages_eq_flat (repoPosts : List String) (dateFrom : Option Int)
    (ps : List (List Row)) (ids : List String) :
    runPages repoPosts dateFrom ps ids =
      getPostList repoPosts dateFrom ps.flatten ids := by
  induction ps generalizing ids with
  | nil => simp [runPages, List.flatten_nil, getPostList]
  | cons p ps ih =>
    simp only [runPages, List.flatten_cons, getPostList_append]
    rcases h : getPostList repoPosts dateFrom p ids with e | r1
    · simp [h, Bind.bind, Except.bind]
    · rcases r1 with ⟨b, ids1⟩
      cases b <;> simp [h, Bind.bind, Except.bind, ih]

theorem search_eq_flat (repoPosts : List String) (dateFrom : Option Int)
    (blocks : List Block) (ids : List String) :
    search repoPosts dateFrom blocks ids =
      (getPostList repoPosts dateFrom (rowsOfBlocks blocks) ids).map (·.2) := by
  induction blocks generalizing ids with
  | nil => simp [search, rowsOfBlocks, getPostList, Except.map]
  | cons b bs ih =>
    simp only [search, rowsOfBlocks, List.map_cons, List.flatten_cons,
      getPostList_append, runPages_eq_flat]
    rcases h : getPostList repoPosts dateFrom (pagesOfBlock b).flatten ids with e | r1
    · simp [h, Bind.bind, Except.bind, Except.map]
    · rcases r1 with ⟨bfl, ids1⟩
      cases bfl
      · simp [h, Bind.bind, Except.bind, Except.map]
      · simp only [h, Bind.bind, Except.bind]
        simpa [rowsOfBlocks] using ih ids1

theorem getPostList_all_continue (repoPosts : List String) (dateFrom : Option Int)
    (rows : List Row) (ids : List String)
    (h : ∀ q ∈ rows, rowAct repoPosts dateFrom q = .skip ∨
      ∃ p, rowAct repoPosts dateFrom q = .queue p) :
    ∃ idsF, getPostList repoPosts dateFrom rows ids = .ok (true, idsF) := by
  induction rows generalizing ids with
  | nil => exact ⟨ids, rfl⟩
  | cons r rs ih =>
    rcases h r (by simp) with hr | ⟨p, hr⟩
    · simpa [getPostList, hr] using ih ids fun q hq => h q (by simp [hq])
    · simpa [getPostList, hr] using
        ih (addPostId ids p) fun q hq => h q (by simp [hq])

/-- Claim C4.  During the listing walk, if the repository reports that a
post row already exists for this scenario, then no row processed after it —
in the same row batch, on a later page of the block, or in any later
block — contributes to the in-run id set, and the walk terminates: the
final set returned by `search` is exactly the set accumulated over the rows
strictly before the stopping row. -/
theorem c4_incremental_stop (repoPosts : List String) (dateFrom : Option Int)
    (blocks : List Block) (ids0 : List String) (pre post : List Row) (r : Row)
    (u : Url) (pid : String)
    (hflat : rowsOfBlocks blocks = pre ++ r :: post)
    (hpre : ∀ q ∈ pre, rowAct repoPosts dateFrom q = .skip ∨
      ∃ p, rowAct repoPosts dateFrom q = .queue p)
    (hrow : isPostRow r = true) (hurl : r.url = some u)
    (hdate : dateCutoff dateFrom r = false)
    (hpid : urlToPlatformId u = .ok pid) (hex : pid ∈ repoPosts) :
    ∃ idsF, search repoPosts dateFrom blocks ids0 = .ok idsF ∧
      getPostList repoPosts dateFrom pre ids0 = .ok (true, idsF) := by
  have hstop : rowAct repoPosts dateFrom r = .stop := by
    simp [rowAct, hrow, hurl, hdate, hpid, hex]
  obtain ⟨idsF, hpre2⟩ := getPostList_all_continue repoPosts dateFrom pre ids0 hpre
  refine ⟨idsF, ?_, hpre2⟩
  rw [search_eq_flat, hflat, getPostList_append, hpre2]
  simp [Bind.bind, Except.bind, getPostList, hstop, Except.map]

def s3row (no : String) : Row :=
  ⟨none, no, some ⟨"https", "gall.dcinside.com", "/board/view",
    "id=pro&no=" ++ no⟩, none⟩

/-- Witness for claim C4 at scenario S3 of the specification: the
repository already holds post 100 of gallery pro; the listing presents
rows 101, 100, 99; the walk queues exactly post 101 and stops. -/
theorem c4_incremental_stop_witness :
    ∃ idsF, search ["DC&G&pro&100"] none [⟨[s3row "101", s3row "100", s3row "99"], []⟩]
        [] = .ok idsF ∧
      getPostList ["DC&G&pro&100"] none [s3row "101"] [] = .ok (true, idsF) :=
  c4_incremental_stop ["DC&G&pro&100"] none
    [⟨[s3row "101", s3row "100", s3row "99"], []⟩] [] [s3row "101"] [s3row "99"]
    (s3row "100") ⟨"https", "gall.dcinside.com", "/board/view", "id=pro&no=100"⟩
    "DC&G&pro&100" rfl
    (by
      intro q hq
      simp only [List.mem_singleton] at hq
      subst hq
      exact Or.inr ⟨"DC&G&pro&101", rfl⟩)
    rfl rfl rfl rfl (by decide)

/-- Claim C9.  Only post rows can be queued: every id in the set after a
row batch was either already there or came from a row classified as a post
row (data-no attribute present, or a purely numeric number cell without the
notice marker 공지); and on the concrete S2 listing page with number cells
공지, 1234, 5678 (all rows carrying hrefs) exactly the two ids for 1234 and
5678 are queued. -/
theorem c9_notice_filter :
    (∀ (repoPosts : List String) (dateFrom : Option Int) (rows : List Row)
        (ids : List String) (b : Bool) (ids2 : List String),
      getPostList repoPosts dateFrom rows ids = .ok (b, ids2) →
      ∀ pid ∈ ids2, pid ∈ ids ∨ ∃ r ∈ rows, isPostRow r = true ∧
        rowAct repoPosts dateFrom r = .queue pid) ∧
    getPostList [] none
      [⟨none, "공지", some ⟨"https", "gall.dcinside.com", "/board/view",
          "id=gal&no=999"⟩, none⟩,
       ⟨none, "1234", some ⟨"https", "gall.dcinside.com", "/board/view",
          "id=gal&no=1234"⟩, none⟩,
       ⟨none, "5678", some ⟨"https", "gall.dcinside.com", "/board/view",
          "id=gal&no=5678"⟩, none⟩] [] =
      .ok (true, ["DC&G&gal&1234", "DC&G&gal&5678"]) := by
  constructor
  · intro repoPosts dateFrom rows
    induction rows with
    | nil =>
      intro ids b ids2 h pid hpid
      simp only [getPostList] at h
      injection h with h
      injection h with h1 h2
      subst h2
      exact Or.inl hpid
    | cons r rs ih =>
      intro ids b ids2 h pid hpid
      simp only [getPostList] at h
      cases hact : rowAct repoPosts dateFrom r with
      | skip =>
        rw [hact] at h
        rcases ih ids b ids2 h pid hpid with hin | ⟨r2, hr2, hpost, hq⟩
        · exact Or.inl hin
        · exact Or.inr ⟨r2, by simp [hr2], hpost, hq⟩
      | stop =>
        rw [hact] at h
        injection h with h
        injection h with h1 h2
        subst h2
        exact Or.inl hpid
      | err e => rw [hact] at h; exact absurd h (by simp)
      | queue p =>
        rw [hact] at h
        rcases ih (addPostId ids p) b ids2 h pid hpid with hin | ⟨r2, hr2, hpost, hq⟩
        · unfold addPostId at hin
          by_cases hmem : p ∈ ids
          · rw [if_pos hmem] at hin
            exact Or.inl hin
          · rw [if_neg hmem] at hin
            rcases List.mem_append.1 hin with hin | hin
            · exact Or.inl hin
            · have hpp : pid = p := by simpa using hin
              subst hpp
              refine Or.inr ⟨r, by simp, ?_, hact⟩
              by_contra hnp
              simp [rowAct, hnp] at hact
        · exact Or.inr ⟨r2, by simp [hr2], hpost, hq⟩
  · rfl

/-- Witness for claim C9: in the S2 page, the queued id DC&G&gal&5678 is
traced back to a post row. -/
theorem c9_notice_filter_witness :
    "DC&G&gal&5678" ∈ ([] : List String) ∨
    ∃ r ∈ [(⟨none, "공지", some ⟨"https", "gall.dcinside.com", "/board/view",
          "id=gal&no=999"⟩, none⟩ : Row),
       ⟨none, "1234", some ⟨"https", "gall.dcinside.com", "/board/view",
          "id=gal&no=1234"⟩, none⟩,
       ⟨none, "5678", some ⟨"https", "gall.dcinside.com", "/board/view",
          "id=gal&no=5678"⟩, none⟩],
      isPostRow r = true ∧ rowAct [] none r = .queue "DC&G&gal&5678" :=
  c9_notice_filter.1 [] none _ [] true ["DC&G&gal&1234", "DC&G&gal&5678"]
    c9_notice_filter.2 "DC&G&gal&5678" (by decide)

/-! Collector ordering (startCrawling, source lines 388..397).  The sort
comparator decomposes both platform ids with splitPlatformId and compares
gallType lexicographically, then galleryId lexicographically, then the
post numbers as JS numbers.  `Array.prototype.sort` is modelled as a stable
insertion sort; a NaN comparator value (non-numeric post number) causes no
reorder, matching a comparator result that is neither negative nor
positive. -/

/-- Lexicographic strict comparison of character lists, as JS string
comparison on the inputs at hand. -/
def lexLt : List Char → List Char → Bool
  | [], [] => false
  | [], _ :: _ => true
  | _ :: _, [] => false
  | x :: xs, y :: ys => if x < y then true else if y < x then false else lexLt xs ys

/-- JS `<` on possibly-undefined strings: false as soon as one side is
`undefined`. -/
def jsStrLtOpt : Option String → Option String → Bool
  | some a, some b => lexLt a.data b.data
  | _, _ => false

/-- A JS number that is either an integer value or NaN. -/
inductive JSNum where
  | num (n : Int)
  | nan
deriving DecidableEq

def digitsToNat (l : List Char) : Nat :=
  l.foldl (fun acc c => acc * 10 + (c.toNat - 48)) 0

/-- JS `Number(...)` on the strings this comparator meets: the empty string
is 0, a whitespace-trimmed digit string is its value, anything else is NaN
(signs, decimals and exotic numeric literals are outside the inputs the
crawler produces and are mapped to NaN). -/
def jsNumber (s : String) : JSNum :=
  let t := trimChars s.data
  if t = [] then .num 0
  else if t.all Char.isDigit then .num (digitsToNat t) else .nan

/-- JS `Number(...)` where the argument may be `undefined` (NaN). -/
def jsNumberOpt : Option String → JSNum
  | none => .nan
  | some s => jsNumber s

/-- Sign of the comparator value `Number(a) - Number(b)`: a NaN difference
is neither negative nor positive, so the sort treats it as no-reorder. -/
def cmpNumDiff : JSNum → JSNum → Ordering
  | .num m, .num n => if m < n then .lt else if n < m then .gt else .eq
  | _, _ => .eq

/-- The comparator of source lines 390..397 on two platform ids. -/
def dcCmp (a b : String) : Ordering :=
  let as0 := splitPlatformId a
  let bs0 := splitPlatformId b
  if as0[0]? ≠ bs0[0]? then (if jsStrLtOpt as0[0]? bs0[0]? then .lt else .gt)
  else if as0[1]? ≠ bs0[1]? then (if jsStrLtOpt as0[1]? bs0[1]? then .lt else .gt)
  else cmpNumDiff (jsNumberOpt as0[2]?) (jsNumberOpt bs0[2]?)

/-- Stable insertion of one element into an already processed prefix:
the element moves before the first strictly greater element and after all
elements it does not compare below. -/
def jsInsertSorted (cmp : String → String → Ordering) (a : String) :
    List String → List String
  | [] => [a]
  | y :: ys => if cmp a y = .lt then a :: y :: ys else y :: jsInsertSorted cmp a ys

/-- `ids.sort(comparator)` as a stable sort (V8 TimSort is stable; on a
consistent comparator every stable sort computes the same list). -/
def jsSortBy (cmp : String → String → Ordering) (l : List String) : List String :=
  l.foldl (fun acc x => jsInsertSorted cmp x acc) []

theorem mem_jsInsertSorted (cmp : String → String → Ordering) (a z : String)
    (l : List String) : z ∈ jsInsertSorted cmp a l ↔ z = a ∨ z ∈ l := by
  induction l with
  | nil => simp [jsInsertSorted]
  | cons y ys ih =>
    by_cases hc : cmp a y = .lt
    · simp [jsInsertSorted, hc]
    · simp [jsInsertSorted, hc, ih]
      tauto

theorem jsInsertSorted_perm (cmp : String → String → Ordering) (a : String)
    (l : List String) : (jsInsertSorted cmp a l).Perm (a :: l) := by
  induction l with
  | nil => simp [jsInsertSorted]
  | cons y ys ih =>
    by_cases hc : cmp a y = .lt
    · simp [jsInsertSorted, hc]
    · simp only [jsInsertSorted, if_neg hc]
      exact (ih.cons y).trans (List.Perm.swap a y ys)

theorem jsSortBy_perm_aux (cmp : String → String → Ordering) :
    ∀ (l acc : List String),
      (l.foldl (fun acc x => jsInsertSorted cmp x acc) acc).Perm (acc ++ l) := by
  intro l
  induction l with
  | nil => intro acc; simp
  | cons x xs ih =>
    intro acc
    have h1 := ih (jsInsertSorted cmp x acc)
    have h2 : (jsInsertSorted cmp x acc ++ xs).Perm ((x :: acc) ++ xs) :=
      (jsInsertSorted_perm cmp x acc).append_right xs
    have h3 : ((x :: acc) ++ xs).Perm (acc ++ x :: xs) := by
      simpa using List.perm_middle.symm
    exact (h1.trans h2).trans h3

theorem jsSortBy_perm (cmp : String → String → Ordering) (l : List String) :
    (jsSortBy cmp l).Perm l := by
  simpa using jsSortBy_perm_aux cmp l []

def cmpLe (cmp : String → String → Ordering) (x y : String) : Prop := cmp x y ≠ .gt

theorem pairwise_jsInsertSorted (cmp : String → String → Ordering)
    (P : String → Prop) {l : List String} {a : String}
    (hmem : ∀ x ∈ l, P x) (ha : P a)
    (h1 : ∀ x y, P x → P y → cmp x y ≠ .lt → cmp y x ≠ .gt)
    (h2 : ∀ x y z, P x → P y → P z → cmp x y = .lt → cmp y z ≠ .gt → cmp x z ≠ .gt)
    (hl : l.Pairwise (cmpLe cmp)) :
    (jsInsertSorted cmp a l).Pairwise (cmpLe cmp) := by
  induction l with
  | nil => simp [jsInsertSorted]
  | cons y ys ih =>
    rcases List.pairwise_cons.1 hl with ⟨hy, hys⟩
    by_cases hc : cmp a y = .lt
    · rw [jsInsertSorted, if_pos hc]
      refine List.Pairwise.cons ?_ hl
      intro z hz
      rcases List.mem_cons.1 hz with rfl | hz
      · simp [cmpLe, hc]
      · exact h2 a y z ha (hmem y (by simp)) (hmem z (by simp [hz])) hc (hy z hz)
    · rw [jsInsertSorted, if_neg hc]
      refine List.Pairwise.cons ?_ (ih (fun x hx => hmem x (by simp [hx])) hys)
      intro z hz
      rcases (mem_jsInsertSorted cmp a z ys).1 hz with rfl | hz
      · exact h1 z y ha (hmem y (by simp)) hc
      · exact hy z hz

theorem pairwise_jsSortBy (cmp : String → String → Ordering) (P : String → Prop)
    (l : List String) (hmem : ∀ x ∈ l, P x)
    (h1 : ∀ x y, P x → P y → cmp x y ≠ .lt → cmp y x ≠ .gt)
    (h2 : ∀ x y z, P x → P y → P z → cmp x y = .lt → cmp y z ≠ .gt → cmp x z ≠ .gt) :
    (jsSortBy cmp l).Pairwise (cmpLe cmp) := by
  have haux : ∀ (l acc : List String), (∀ x ∈ l, P x) → (∀ x ∈ acc, P x) →
      acc.Pairwise (cmpLe cmp) →
      (l.foldl (fun acc x => jsInsertSorted cmp x acc) acc).Pairwise (cmpLe cmp) := by
    intro l
    induction l with
    | nil => intro acc _ _ hacc; exact hacc
    | cons x xs ih =>
      intro acc hl hacc hpacc
      refine ih (jsInsertSorted cmp x acc) (fun q hq => hl q (by simp [hq])) ?_ ?_
      · intro q hq
        rcases (mem_jsInsertSorted cmp x q acc).1 hq with rfl | hq
        · exact hl q (by simp)
        · exact hacc q hq
      · exact pairwise_jsInsertSorted cmp P hacc (hl x (by simp)) h1 h2 hpacc
  exact haux l [] hmem (by simp) (by simp)

theorem lexLt_irrefl (l : List Char) : lexLt l l = false := by
  induction l with
  | nil => rfl
  | cons x xs ih => simp [lexLt, lt_irrefl, ih]

theorem lexLt_asymm : ∀ {a b : List Char}, lexLt a b = true → lexLt b a = false
  | [], [], h => by simp [lexLt] at h
  | [], _ :: _, _ => rfl
  | _ :: _, [], h => by simp [lexLt] at h
  | x :: xs, y :: ys, h => by
    simp only [lexLt] at h ⊢
    by_cases hxy : x < y
    · simp [hxy, asymm hxy, lt_irrefl]
    · by_cases hyx : y < x
      · simp [hxy, hyx] at h
      · simp only [hxy, hyx, if_neg, if_false] at h ⊢
        simp [lexLt_asymm h]

theorem lexLt_total : ∀ {a b : List Char}, a ≠ b →
    lexLt a b = true ∨ lexLt b a = true
  | [], [], h => absurd rfl h
  | [], _ :: _, _ => Or.inl rfl
  | _ :: _, [], _ => Or.inr rfl
  | x :: xs, y :: ys, h => by
    rcases lt_trichotomy x y with hxy | hxy | hxy
    · exact Or.inl (by simp [lexLt, hxy])
    · subst hxy
      have hxs : xs ≠ ys := fun he => h (by rw [he])
      rcases lexLt_total hxs with ht | ht
      · exact Or.inl (by simp [lexLt, lt_irrefl, ht])
      · exact Or.inr (by simp [lexLt, lt_irrefl, ht])
    · exact Or.inr (by simp [lexLt, hxy, asymm hxy])

theorem lexLt_trans : ∀ {a b c : List Char}, lexLt a b = true →
    lexLt b c = true → lexLt a c = true
  | [], [], _, h, _ => by simp [lexLt] at h
  | [], _ :: _, [], _, h => by simp [lexLt] at h
  | [], _ :: _, _ :: _, _, _ => rfl
  | _ :: _, [], _, h, _ => by simp [lexLt] at h
  | _ :: _, _ :: _, [], _, h => by simp [lexLt] at h
  | x :: xs, y :: ys, z :: zs, h1, h2 => by
    simp only [lexLt] at h1 h2 ⊢
    by_cases hxy : x < y
    · by_cases hyz : y < z
      · simp [lt_trans hxy hyz]
      · by_cases hzy : z < y
        · simp [hyz, hzy] at h2
        · have hyzeq : y = z := le_antisymm (not_lt.1 hzy) (not_lt.1 hyz)
          subst hyzeq
          simp [hxy]
    · by_cases hyx : y < x
      · simp [hxy, hyx] at h1
      · have hxyeq : x = y := le_antisymm (not_lt.1 hyx) (not_lt.1 hxy)
        subst hxyeq
        simp only [lt_irrefl, if_neg, if_false] at h1
        by_cases hyz : x < z
        · simp [hyz]
        · by_cases hzy : z < x
          · simp [hyz, hzy] at h2
          · have hxzeq : x = z := le_antisymm (not_lt.1 hzy) (not_lt.1 hyz)
            subst hxzeq
            simp only [lt_irrefl, if_neg, if_false] at h1 h2 ⊢
            exact lexLt_trans h1 h2

/-- The decomposed sort key of a platform id: the first two split fields
and the third as a JS number. -/
structure PidKey where
  f0 : String
  f1 : String
  num : JSNum
deriving DecidableEq

def pidKey (p : String) : PidKey :=
  ⟨((splitPlatformId p)[0]?).getD "", ((splitPlatformId p)[1]?).getD "",
    jsNumberOpt (splitPlatformId p)[2]?⟩

/-- Three-way string comparison used in the analysis of the comparator. -/
def strCmpD (a b : String) : Ordering :=
  if a = b then .eq else if lexLt a.data b.data then .lt else .gt

def fld0Cmp (k1 k2 : PidKey) : Ordering := strCmpD k1.f0 k2.f0

def fld1Cmp (k1 k2 : PidKey) : Ordering := strCmpD k1.f1 k2.f1

def numCmp (k1 k2 : PidKey) : Ordering := cmpNumDiff k1.num k2.num

def innerCmp (k1 k2 : PidKey) : Ordering := (fld1Cmp k1 k2).then (numCmp k1 k2)

def keyCmp (k1 k2 : PidKey) : Ordering := (fld0Cmp k1 k2).then (innerCmp k1 k2)

/-- A platform id whose split has at least the three expected fields; every
id the walker queues has this shape. -/
def wellFormedPid (p : String) : Prop := 3 ≤ (splitPlatformId p).length

/-- A well-formed platform id whose post-number field is numeric for JS. -/
def numericPid (p : String) : Prop :=
  wellFormedPid p ∧ jsNumberOpt (splitPlatformId p)[2]? ≠ .nan

theorem pid_decomp {p : String} (h : wellFormedPid p) :
    ∃ f0 f1 f2 t, splitPlatformId p = f0 :: f1 :: f2 :: t := by
  unfold wellFormedPid at h
  rcases hs : splitPlatformId p with _ | ⟨f0, _ | ⟨f1, _ | ⟨f2, t⟩⟩⟩
  · rw [hs] at h; simp at h
  · rw [hs] at h; simp at h
  · rw [hs] at h; simp at h
  · exact ⟨f0, f1, f2, t, rfl⟩

theorem ordering_eq_then (k : Ordering) : Ordering.eq.then k = k := rfl

theorem ordering_lt_then (k : Ordering) : Ordering.lt.then k = .lt := rfl

theorem ordering_gt_then (k : Ordering) : Ordering.gt.then k = .gt := rfl

theorem strCmpD_refl (a : String) : strCmpD a a = .eq := by simp [strCmpD]

theorem dcCmp_eq_keyCmp {x y : String} (hx : wellFormedPid x)
    (hy : wellFormedPid y) : dcCmp x y = keyCmp (pidKey x) (pidKey y) := by
  obtain ⟨a0, a1, a2, ta, hxs⟩ := pid_decomp hx
  obtain ⟨b0, b1, b2, tb, hys⟩ := pid_decomp hy
  unfold dcCmp keyCmp innerCmp fld0Cmp fld1Cmp numCmp pidKey
  rw [hxs, hys]
  simp only [List.getElem?_cons_zero, List.getElem?_cons_succ, Option.getD_some,
    jsStrLtOpt, jsNumberOpt, ne_eq, Option.some.injEq]
  by_cases h0 : a0 = b0
  · subst h0
    rw [if_neg (not_not_intro rfl), strCmpD_refl, ordering_eq_then]
    by_cases h1 : a1 = b1
    · subst h1
      rw [if_neg (not_not_intro rfl), strCmpD_refl, ordering_eq_then]
    · rw [if_pos h1]
      unfold strCmpD
      rw [if_neg h1]
      by_cases hl : lexLt a1.data b1.data = true
      · rw [if_pos hl]
        exact (ordering_lt_then _).symm
      · rw [if_neg hl]
        exact (ordering_gt_then _).symm
  · rw [if_pos h0]
    conv_rhs => rw [strCmpD]
    rw [if_neg h0]
    by_cases hl : lexLt a0.data b0.data = true
    · rw [if_pos hl]
      exact (ordering_lt_then _).symm
    · rw [if_neg hl]
      exact (ordering_gt_then _).symm

theorem strCmpD_eq_iff {a b : String} : strCmpD a b = .eq ↔ a = b := by
  unfold strCmpD
  by_cases h : a = b
  · simp [h]
  · simp only [if_neg h]
    by_cases hl : lexLt a.data b.data = true <;> simp [hl, h]

theorem strCmpD_trans {a b c : String} (h1 : strCmpD a b = .lt)
    (h2 : strCmpD b c = .lt) : strCmpD a c = .lt := by
  unfold strCmpD at h1 h2 ⊢
  by_cases hab : a = b
  · simp [hab] at h1
  · by_cases hbc : b = c
    · simp [hbc] at h2
    · simp only [if_neg hab, if_neg hbc] at h1 h2
      by_cases hl1 : lexLt a.data b.data = true
      · by_cases hl2 : lexLt b.data c.data = true
        · have hl3 := lexLt_trans hl1 hl2
          have hac : a ≠ c := by
            intro he
            subst he
            exact absurd (lexLt_asymm hl1) (by simp [hl2])
          simp [hac, hl3]
        · simp [hl2] at h2
      · simp [hl1] at h1

theorem cmpNumDiff_num_lt {a b : Int} :
    cmpNumDiff (.num a) (.num b) = .lt ↔ a < b := by
  simp only [cmpNumDiff]
  by_cases h : a < b
  · simp [h]
  · by_cases h2 : b < a <;> simp [h, h2]

theorem cmpNumDiff_num_gt {a b : Int} :
    cmpNumDiff (.num a) (.num b) = .gt ↔ b < a := by
  simp only [cmpNumDiff]
  by_cases h : a < b
  · simp [h, asymm h]
  · by_cases h2 : b < a <;> simp [h, h2]

theorem ordering_then_swap (a b : Ordering) : (a.then b).swap = a.swap.then b.swap := by
  cases a <;> simp [Ordering.then, Ordering.swap]

theorem strCmpD_swap (a b : String) : strCmpD b a = (strCmpD a b).swap := by
  unfold strCmpD
  by_cases h : a = b
  · subst h; simp [Ordering.swap]
  · have hdne : a.data ≠ b.data := fun hd => h (strExt hd)
    simp only [if_neg h, if_neg (Ne.symm h)]
    by_cases hl : lexLt a.data b.data = true
    · simp [hl, lexLt_asymm hl, Ordering.swap]
    · have hr : lexLt b.data a.data = true := (lexLt_total hdne).resolve_left hl
      simp [hl, hr, Ordering.swap]

theorem cmpNumDiff_swap (m n : JSNum) : cmpNumDiff n m = (cmpNumDiff m n).swap := by
  cases m with
  | nan => cases n <;> simp [cmpNumDiff, Ordering.swap]
  | num a =>
    cases n with
    | nan => simp [cmpNumDiff, Ordering.swap]
    | num b =>
      simp only [cmpNumDiff]
      rcases lt_trichotomy a b with h | h | h
      · simp [h, asymm h, Ordering.swap]
      · subst h; simp [lt_irrefl, Ordering.swap]
      · simp [h, asymm h, Ordering.swap]

theorem cmpNumDiff_quasi_trans : ∀ {m n k : JSNum}, cmpNumDiff m n = .lt →
    cmpNumDiff n k ≠ .gt → cmpNumDiff m k ≠ .gt
  | .num a, .num b, .num c, h1, h2 => by
    rw [cmpNumDiff_num_lt] at h1
    intro hgt
    rw [cmpNumDiff_num_gt] at hgt
    apply h2
    rw [cmpNumDiff_num_gt]
    omega
  | .num _, .num _, .nan, _, _ => by simp [cmpNumDiff]
  | .num _, .nan, _, h1, _ => by simp [cmpNumDiff] at h1
  | .nan, n, _, h1, _ => by cases n <;> simp [cmpNumDiff] at h1

/-- Quasi-transitivity of a lexicographic two-stage comparator: if the
primary stage is congruent on ties, antisymmetric via swap and transitive,
and the secondary stage is quasi-transitive, the composite never orders an
element above one that an earlier element was placed below. -/
theorem then_comp_quasi_trans {α : Type} (f g : α → α → Ordering)
    (hfcong : ∀ x y, f x y = .eq → ∀ w, f x w = f y w ∧ f w x = f w y)
    (hfswap : ∀ x y, f y x = (f x y).swap)
    (hftrans : ∀ x y z, f x y = .lt → f y z = .lt → f x z = .lt)
    (hgq : ∀ x y z, g x y = .lt → g y z ≠ .gt → g x z ≠ .gt)
    (x y z : α)
    (h1 : (f x y).then (g x y) = .lt) (h2 : (f y z).then (g y z) ≠ .gt) :
    (f x z).then (g x z) ≠ .gt := by
  intro hgt
  cases e12 : f x y with
  | gt => rw [e12, ordering_gt_then] at h1; exact absurd h1 (by simp)
  | lt =>
    cases e13 : f x z with
    | lt => rw [e13, ordering_lt_then] at hgt; exact absurd hgt (by simp)
    | eq =>
      have hyz : f y z = .gt := by
        have hxz := (hfcong x z e13 y).2
        have hswap : f y x = .gt := by rw [hfswap, e12]; rfl
        rw [← hxz, hswap]
      rw [hyz, ordering_gt_then] at h2
      exact h2 rfl
    | gt =>
      cases e23 : f y z with
      | gt => rw [e23, ordering_gt_then] at h2; exact h2 rfl
      | lt => exact absurd (hftrans x y z e12 e23) (by simp [e13])
      | eq =>
        have hc := (hfcong y z e23 x).2
        rw [← hc, e12] at e13
        exact absurd e13 (by simp)
  | eq =>
    have hxz_eq : f x z = f y z := (hfcong x y e12 z).1
    rw [e12, ordering_eq_then] at h1
    cases e23 : f y z with
    | gt => rw [e23, ordering_gt_then] at h2; exact h2 rfl
    | lt => rw [hxz_eq, e23, ordering_lt_then] at hgt; exact absurd hgt (by simp)
    | eq =>
      rw [e23, ordering_eq_then] at h2
      rw [hxz_eq, e23, ordering_eq_then] at hgt
      exact hgq x y z h1 h2 hgt

theorem fld0Cmp_cong (x y : PidKey) (h : fld0Cmp x y = .eq) (w : PidKey) :
    fld0Cmp x w = fld0Cmp y w ∧ fld0Cmp w x = fld0Cmp w y := by
  unfold fld0Cmp at h ⊢
  rw [strCmpD_eq_iff.1 h]
  exact ⟨rfl, rfl⟩

theorem fld1Cmp_cong (x y : PidKey) (h : fld1Cmp x y = .eq) (w : PidKey) :
    fld1Cmp x w = fld1Cmp y w ∧ fld1Cmp w x = fld1Cmp w y := by
  unfold fld1Cmp at h ⊢
  rw [strCmpD_eq_iff.1 h]
  exact ⟨rfl, rfl⟩

theorem innerCmp_quasi_trans (k1 k2 k3 : PidKey) (h1 : innerCmp k1 k2 = .lt)
    (h2 : innerCmp k2 k3 ≠ .gt) : innerCmp k1 k3 ≠ .gt := by
  unfold innerCmp at h1 h2 ⊢
  exact then_comp_quasi_trans fld1Cmp numCmp fld1Cmp_cong
    (fun a b => strCmpD_swap a.f1 b.f1)
    (fun a b c ha hb => strCmpD_trans ha hb)
    (fun a b c ha hb => cmpNumDiff_quasi_trans ha hb)
    k1 k2 k3 h1 h2

theorem keyCmp_quasi_trans (k1 k2 k3 : PidKey) (h1 : keyCmp k1 k2 = .lt)
    (h2 : keyCmp k2 k3 ≠ .gt) : keyCmp k1 k3 ≠ .gt := by
  unfold keyCmp at h1 h2 ⊢
  exact then_comp_quasi_trans fld0Cmp innerCmp fld0Cmp_cong
    (fun a b => strCmpD_swap a.f0 b.f0)
    (fun a b c ha hb => strCmpD_trans ha hb)
    innerCmp_quasi_trans
    k1 k2 k3 h1 h2

theorem innerCmp_swap (k1 k2 : PidKey) : innerCmp k2 k1 = (innerCmp k1 k2).swap := by
  unfold innerCmp fld1Cmp numCmp
  rw [strCmpD_swap k1.f1 k2.f1, cmpNumDiff_swap k1.num k2.num, ← ordering_then_swap]

theorem keyCmp_swap (k1 k2 : PidKey) : keyCmp k2 k1 = (keyCmp k1 k2).swap := by
  unfold keyCmp fld0Cmp
  rw [strCmpD_swap k1.f0 k2.f0, innerCmp_swap k1 k2, ← ordering_then_swap]

theorem keyCmp_asym (k1 k2 : PidKey) (h : keyCmp k1 k2 ≠ .lt) :
    keyCmp k2 k1 ≠ .gt := by
  intro hgt
  rw [keyCmp_swap] at hgt
  cases hk : keyCmp k1 k2 <;> rw [hk] at hgt <;> simp [Ordering.swap] at hgt
  exact h hk

theorem ordering_then_eq {a b : Ordering} (h : a.then b = .eq) :
    a = .eq ∧ b = .eq := by
  cases a with
  | lt => exact absurd h (by simp [Ordering.then])
  | gt => exact absurd h (by simp [Ordering.then])
  | eq => exact ⟨rfl, h⟩

theorem cmpNumDiff_eq_num {a b : Int} (h : cmpNumDiff (.num a) (.num b) = .eq) :
    a = b := by
  simp only [cmpNumDiff] at h
  by_cases h1 : a < b
  · simp [h1] at h
  · by_cases h2 : b < a
    · simp [h1, h2] at h
    · omega

theorem keyCmp_eq_key_eq {k1 k2 : PidKey} (h1 : k1.num ≠ .nan)
    (h2 : k2.num ≠ .nan) (h : keyCmp k1 k2 = .eq) : k1 = k2 := by
  obtain ⟨f0, f1, n⟩ := k1
  obtain ⟨g0, g1, m⟩ := k2
  unfold keyCmp innerCmp fld0Cmp fld1Cmp numCmp at h
  obtain ⟨hf0, hrest⟩ := ordering_then_eq h
  obtain ⟨hf1, hnum⟩ := ordering_then_eq hrest
  rw [strCmpD_eq_iff] at hf0 hf1
  cases n with
  | nan => exact absurd rfl h1
  | num a =>
    cases m with
    | nan => exact absurd rfl h2
    | num b =>
      have hab := cmpNumDiff_eq_num hnum
      simp only at hf0 hf1
      rw [hf0, hf1, hab]

theorem dcCmp_antisym {x y : String} (hx : wellFormedPid x)
    (hy : wellFormedPid y) (h : dcCmp x y ≠ .lt) : dcCmp y x ≠ .gt := by
  rw [dcCmp_eq_keyCmp hx hy] at h
  rw [dcCmp_eq_keyCmp hy hx]
  exact keyCmp_asym _ _ h

theorem dcCmp_quasi_trans {x y z : String} (hx : wellFormedPid x)
    (hy : wellFormedPid y) (hz : wellFormedPid z) (h1 : dcCmp x y = .lt)
    (h2 : dcCmp y z ≠ .gt) : dcCmp x z ≠ .gt := by
  rw [dcCmp_eq_keyCmp hx hy] at h1
  rw [dcCmp_eq_keyCmp hy hz] at h2
  rw [dcCmp_eq_keyCmp hx hz]
  exact keyCmp_quasi_trans _ _ _ h1 h2

theorem dcCmp_lt_of_le_ne {x y : String} (hx : numericPid x) (hy : numericPid y)
    (hne : pidKey x ≠ pidKey y) (h : dcCmp x y ≠ .gt) : dcCmp x y = .lt := by
  rw [dcCmp_eq_keyCmp hx.1 hy.1] at h ⊢
  cases hk : keyCmp (pidKey x) (pidKey y) with
  | lt => rfl
  | eq => exact absurd (keyCmp_eq_key_eq hx.2 hy.2 hk) hne
  | gt => exact absurd hk h

instance : DecidablePred wellFormedPid := fun p => by
  unfold wellFormedPid
  infer_instance

instance : DecidablePred numericPid := fun p => by
  unfold numericPid
  exact instDecidableAnd

/-- C5 (amended): after the walker finishes the collector sorts the queued
platform ids with the three-key comparator (lexicographic on the gallType
field, then on the galleryId field, then the sign of `Number(a2) - Number(b2)`
on the post-number field); the sorted list is a permutation of the queue and
is ascending in the non-strict sense (no earlier element compares above a
later one). If moreover every queued id has a numeric post-number field and
no two queued ids share the same decomposed key, the order is strictly
ascending. Strictness fails in general: ids whose keys tie (equal fields, or
numerically equal post numbers such as 7 and 07, or NaN post numbers) stay
in queue order and compare `eq`, not `lt`. -/
theorem c5_sort_order_amended (ids : List String)
    (hwf : ∀ p ∈ ids, wellFormedPid p) :
    (jsSortBy dcCmp ids).Perm ids ∧
    (jsSortBy dcCmp ids).Pairwise (fun a b => dcCmp a b ≠ .gt) ∧
    ((∀ p ∈ ids, numericPid p) → (ids.map pidKey).Nodup →
      (jsSortBy dcCmp ids).Pairwise (fun a b => dcCmp a b = .lt)) := by
  have hperm := jsSortBy_perm dcCmp ids
  have hmemS : ∀ p ∈ jsSortBy dcCmp ids, p ∈ ids := fun p hp => hperm.mem_iff.1 hp
  have hpw : (jsSortBy dcCmp ids).Pairwise (cmpLe dcCmp) :=
    pairwise_jsSortBy dcCmp wellFormedPid ids hwf
      (fun a b ha hb hc => dcCmp_antisym ha hb hc)
      (fun a b c ha hb hc h1 h2 => dcCmp_quasi_trans ha hb hc h1 h2)
  refine ⟨hperm, hpw, ?_⟩
  intro hnum hnd
  have hndS : ((jsSortBy dcCmp ids).map pidKey).Nodup :=
    ((hperm.map pidKey).symm).nodup hnd
  have hkey : (jsSortBy dcCmp ids).Pairwise (fun a b => pidKey a ≠ pidKey b) :=
    List.pairwise_map.1 hndS
  refine List.Pairwise.imp_of_mem ?_ (hpw.and hkey)
  intro a b ha hb hab
  exact dcCmp_lt_of_le_ne (hnum a (hmemS a ha)) (hnum b (hmemS b hb)) hab.2 hab.1

/-- C5 counterexample to strict ascending order: the distinct queued ids
DC&G&pro&7 and DC&G&pro&07 have numerically equal post-number fields, so the
comparator returns 0 on them, the stable sort keeps them in queue order, and
the earlier-processed id is not strictly below the later one. -/
theorem c5_sort_order_cex :
    jsSortBy dcCmp ["DC&G&pro&7", "DC&G&pro&07"] =
      ["DC&G&pro&7", "DC&G&pro&07"] ∧
    dcCmp "DC&G&pro&7" "DC&G&pro&07" = .eq ∧
    "DC&G&pro&7" ≠ "DC&G&pro&07" :=
  ⟨rfl, rfl, by decide⟩

/-- C5 witness: on the queue [DC&MI&m&12, DC&G&b&2, DC&G&b&10] every id is
well formed with a numeric post number and the keys are pairwise distinct, so
the sorted result DC&G&b&2, DC&G&b&10, DC&MI&m&12 is strictly ascending
(numeric order 2 before 10, not lexicographic). -/
theorem c5_sort_order_witness :
    jsSortBy dcCmp ["DC&MI&m&12", "DC&G&b&2", "DC&G&b&10"] =
      ["DC&G&b&2", "DC&G&b&10", "DC&MI&m&12"] ∧
    (jsSortBy dcCmp ["DC&MI&m&12", "DC&G&b&2", "DC&G&b&10"]).Pairwise
      (fun a b => dcCmp a b = .lt) :=
  ⟨rfl, (c5_sort_order_amended ["DC&MI&m&12", "DC&G&b&2", "DC&G&b&10"]
    (by decide)).2.2 (by decide) (by decide)⟩

/-! Comment ingestion (`saveCommentInfo`, source lines 811..863;
`parseDotDateTimeKST`, source lines 880..884; `stripHtml`, source lines
897..900).  A JS `Date` is modelled by the KST ISO literal handed to the
constructor; the cheerio HTML-to-text conversion of `stripHtml` is the
abstract parameter `strip`; the runtime clock's current year
(`new Date().getFullYear()`) is the parameter `year`; `commentExists` reads
the repository state at the start of the page, which the loop does not
mutate (the single bulk insert happens after it), so the known comment ids
are the constant list `existing`. -/

structure DCCommentApiItem where
  no : Option String
  del_yn : String
  memo : String
  user_id : Option String
  name : Option String
  ip : Option String
  reg_date : String
deriving DecidableEq

/-- `txt.replace(/\./g, "-")` on the character list. -/
def dotsToDashes (l : List Char) : List Char :=
  l.map fun ch => if ch = '.' then '-' else ch

/-- `s.replace(" ", "T")`: only the first space is replaced. -/
def firstSpaceToT : List Char → List Char
  | [] => []
  | ch :: t => if ch = ' ' then 'T' :: t else ch :: firstSpaceToT t

/-- `parseDotDateTimeKST` (source lines 880..884): trim, turn every dot into
a dash, turn the first space into a `T` and append the `+09:00` offset; the
result is the literal handed to `new Date(...)`. -/
def parseDotDateTimeKST (txt : String) : String :=
  String.mk (firstSpaceToT (dotsToDashes (trimChars txt.data))) ++ "+09:00"

/-- The year patch of `saveCommentInfo` (source lines 839..845): when
`reg_date.split(".")` has exactly two parts (`MM.DD HH:mm:ss`), the current
year of the runtime clock is prepended before parsing. -/
def commentWrittenAt (year : Nat) (reg : String) : String :=
  parseDotDateTimeKST
    (if (splitChars '.' reg.data).length = 2
     then toString year ++ "." ++ reg else reg)

/-- One retained `CommentInput` row (source lines 846..858), with the
random `commentId` and the constant `scenarioId`/`url` pass-through fields
omitted. -/
structure CommentRecord where
  postId : String
  platformCommentId : String
  writerId : Option String
  writer : Option String
  writerIp : Option String
  contents : String
  gallery : String
  writtenAt : String
deriving DecidableEq

def mkCommentRecord (strip : String → String) (year : Nat)
    (postId pid gall : String) (c : DCCommentApiItem) : CommentRecord :=
  ⟨postId, pid ++ "&" ++ jsTemplate c.no, c.user_id, c.name, c.ip,
    jsTrim (strip c.memo), gall, commentWrittenAt year c.reg_date⟩

/-- The item loop of `saveCommentInfo` (source lines 817..859): skip control
rows (falsy `no`), deleted comments (`del_yn = "Y"`), ids the repository
already has, and comments whose contents are empty after HTML stripping and
trimming; a throw of `urlToPlatformId`/`extractGalleryInfoFromUrl` escapes
the loop.  The retained rows come back in item order. -/
def saveCommentItems (strip : String → String) (year : Nat)
    (existing : List String) (postId : String) (url : Url) :
    List DCCommentApiItem → Except String (List CommentRecord)
  | [] => .ok []
  | c :: rest =>
    if jsTruthy c.no = false then
      saveCommentItems strip year existing postId url rest
    else if c.del_yn = "Y" then
      saveCommentItems strip year existing postId url rest
    else do
      let pid ← urlToPlatformId url
      if existing.contains (pid ++ "&" ++ jsTemplate c.no) then
        saveCommentItems strip year existing postId url rest
      else if jsTrim (strip c.memo) = "" then
        saveCommentItems strip year existing postId url rest
      else do
        let info ← extractGalleryInfoFromUrl url
        let rest2 ← saveCommentItems strip year existing postId url rest
        .ok (mkCommentRecord strip year postId pid
          (info.gallType.code ++ "&" ++ info.galleryId) c :: rest2)

/-- The page-level write (source line 861): one `insertCommentsBulk` call
carrying all surviving rows when there is at least one, no call otherwise. -/
def saveCommentBulkCalls (strip : String → String) (year : Nat)
    (existing : List String) (postId : String) (url : Url)
    (items : List DCCommentApiItem) :
    Except String (List (List CommentRecord)) :=
  (saveCommentItems strip year existing postId url items).map
    fun rs => if rs = [] then [] else [rs]

/-- The conjunction of the four skip conditions, as a single filter
predicate used to characterise the loop. -/
def keepComment (strip : String → String) (existing : List String)
    (pid : String) (c : DCCommentApiItem) : Bool :=
  jsTruthy c.no && c.del_yn != "Y" &&
    !(existing.contains (pid ++ "&" ++ jsTemplate c.no)) &&
    jsTrim (strip c.memo) != ""

theorem saveCommentItems_err (strip : String → String) (year : Nat)
    (existing : List String) (postId : String) (url : Url) {e : String}
    (hu : urlToPlatformId url = .error e) :
    ∀ {items : List DCCommentApiItem} {rs : List CommentRecord},
      saveCommentItems strip year existing postId url items = .ok rs → rs = [] := by
  intro items
  induction items with
  | nil =>
    intro rs h
    exact (Except.ok.inj h).symm
  | cons c rest ih =>
    intro rs h
    rw [saveCommentItems] at h
    by_cases h1 : jsTruthy c.no = false
    · rw [if_pos h1] at h; exact ih h
    · rw [if_neg h1] at h
      by_cases h2 : c.del_yn = "Y"
      · rw [if_pos h2] at h; exact ih h
      · rw [if_neg h2] at h
        simp [hu, Bind.bind, Except.bind] at h

theorem saveCommentItems_ok (strip : String → String) (year : Nat)
    (existing : List String) (postId : String) (url : Url)
    {pid : String} {info : DCExtractedInfo}
    (hpid : urlToPlatformId url = .ok pid)
    (hinfo : extractGalleryInfoFromUrl url = .ok info) :
    ∀ items : List DCCommentApiItem,
      saveCommentItems strip year existing postId url items =
        .ok ((items.filter (keepComment strip existing pid)).map
          (mkCommentRecord strip year postId pid
            (info.gallType.code ++ "&" ++ info.galleryId))) := by
  intro items
  induction items with
  | nil => rfl
  | cons c rest ih =>
    rw [saveCommentItems]
    by_cases h1 : jsTruthy c.no = false
    · rw [if_pos h1, ih]
      simp [List.filter_cons, keepComment, h1]
    · rw [if_neg h1]
      have h1t : jsTruthy c.no = true := by
        cases hb : jsTruthy c.no
        · exact absurd hb h1
        · rfl
      by_cases h2 : c.del_yn = "Y"
      · rw [if_pos h2, ih]
        simp [List.filter_cons, keepComment, h2]
      · rw [if_neg h2]
        by_cases h3 : existing.contains (pid ++ "&" ++ jsTemplate c.no) = true
        · simp only [hpid, Bind.bind, Except.bind, if_pos h3]
          rw [ih]
          have h3m : pid ++ "&" ++ jsTemplate c.no ∈ existing := by
            simpa using h3
          simp [List.filter_cons, keepComment, h3m]
        · rw [Bool.not_eq_true] at h3
          by_cases h4 : jsTrim (strip c.memo) = ""
          · simp only [hpid, Bind.bind, Except.bind, h3, Bool.false_eq_true,
              if_false, if_pos h4]
            rw [ih]
            simp [List.filter_cons, keepComment, h3, h4]
          · simp only [hpid, hinfo, Bind.bind, Except.bind, h3,
              Bool.false_eq_true, if_false, if_neg h4]
            rw [ih]
            have h3m : pid ++ "&" ++ jsTemplate c.no ∉ existing := by
              simpa using h3
            simp [List.filter_cons, keepComment, h1t, h2, h3m, h4]

/-- C6.  On every comment page the ingestion performs at most one bulk
write; every persisted row is traceable to an upstream item that has a
truthy comment number and is not marked deleted, and carries that item's
HTML-stripped, trimmed, non-empty contents; and the rows of the single bulk
call are exactly the surviving items of the page, in upstream order
(the filter/map characterisation of the loop). -/
theorem c6_comment_filters (strip : String → String) (year : Nat)
    (existing : List String) (postId : String) (url : Url)
    (items : List DCCommentApiItem) (calls : List (List CommentRecord))
    (h : saveCommentBulkCalls strip year existing postId url items = .ok calls) :
    calls.length ≤ 1 ∧
    (∀ rs ∈ calls, ∀ r ∈ rs, ∃ c ∈ items,
      jsTruthy c.no = true ∧ c.del_yn ≠ "Y" ∧
      r.contents = jsTrim (strip c.memo) ∧ r.contents ≠ "") ∧
    (∀ rs ∈ calls, ∃ pid info,
      urlToPlatformId url = .ok pid ∧
      extractGalleryInfoFromUrl url = .ok info ∧
      rs ≠ [] ∧
      rs = (items.filter (keepComment strip existing pid)).map
        (mkCommentRecord strip year postId pid
          (info.gallType.code ++ "&" ++ info.galleryId))) := by
  cases hu : urlToPlatformId url with
  | error e =>
    cases hs : saveCommentItems strip year existing postId url items with
    | error e2 =>
      rw [saveCommentBulkCalls, hs] at h
      exact absurd h (by simp [Except.map])
    | ok rs =>
      have hnil : rs = [] := saveCommentItems_err strip year existing postId
        url hu hs
      rw [saveCommentBulkCalls, hs, hnil] at h
      have hcalls : calls = [] := by
        simpa [Except.map] using h.symm
      subst hcalls
      refine ⟨by simp, by simp, by simp⟩
  | ok pid =>
    have hinfo : ∃ info, extractGalleryInfoFromUrl url = .ok info := by
      rw [urlToPlatformId] at hu
      cases hx : extractGalleryInfoFromUrl url with
      | error e => rw [hx] at hu; exact absurd hu (by simp [Except.map])
      | ok info => exact ⟨info, rfl⟩
    obtain ⟨info, hinfo⟩ := hinfo
    have hok := saveCommentItems_ok strip year existing postId url hu hinfo items
    rw [saveCommentBulkCalls, hok] at h
    simp only [Except.map] at h
    have hcalls := Except.ok.inj h
    by_cases hnil : (items.filter (keepComment strip existing pid)).map
        (mkCommentRecord strip year postId pid
          (info.gallType.code ++ "&" ++ info.galleryId)) = []
    · rw [if_pos hnil] at hcalls
      subst hcalls
      refine ⟨by simp, by simp, by simp⟩
    · rw [if_neg hnil] at hcalls
      subst hcalls
      refine ⟨by simp, ?_, ?_⟩
      · intro rs hrs r hr
        rw [List.mem_singleton] at hrs
        subst hrs
        rw [List.mem_map] at hr
        obtain ⟨c, hcf, hrc⟩ := hr
        rw [List.mem_filter] at hcf
        obtain ⟨hcm, hkeep⟩ := hcf
        have hk : jsTruthy c.no = true ∧ c.del_yn ≠ "Y" ∧
            jsTrim (strip c.memo) ≠ "" := by
          simp only [keepComment, Bool.and_eq_true, bne_iff_ne, ne_eq,
            Bool.not_eq_true] at hkeep
          exact ⟨hkeep.1.1.1, hkeep.1.1.2, hkeep.2⟩
        refine ⟨c, hcm, hk.1, hk.2.1, ?_, ?_⟩
        · rw [← hrc]; rfl
        · rw [← hrc]; exact hk.2.2
      · intro rs hrs
        rw [List.mem_singleton] at hrs
        subst hrs
        exact ⟨pid, info, rfl, hinfo, hnil, rfl⟩

def c6Url : Url := ⟨"https", "gall.dcinside.com", "/board/view", "id=gal&no=42"⟩

def c6Items : List DCCommentApiItem :=
  [⟨none, "N", "control row", none, none, none, "2025.09.01 10:00:00"⟩,
   ⟨some "7", "Y", "deleted", none, none, none, "2025.09.01 10:01:00"⟩,
   ⟨some "9", "N", "duplicate", none, none, none, "2025.09.01 10:02:00"⟩,
   ⟨some "8", "N", "   ", none, none, none, "2025.09.01 10:03:00"⟩,
   ⟨some "10", "N", " hi ", some "u1", some "nick", some "1.2.3.4",
     "09.01 12:34:56"⟩]

def c6Record : CommentRecord :=
  ⟨"p1", "DC&G&gal&42&10", some "u1", some "nick", some "1.2.3.4", "hi",
    "G&gal", "2025-09-01T12:34:56+09:00"⟩

/-- Witness for claim C6: of five upstream items (a control row without a
comment number, a deleted comment, a comment the repository already has, a
comment whose stripped contents are blank, and one genuine comment), only
the last survives, and the page issues exactly one bulk call carrying its
row with trimmed contents and the year-patched KST date. -/
theorem c6_comment_filters_witness :
    saveCommentBulkCalls (fun s => s) 2025 ["DC&G&gal&42&9"] "p1" c6Url
      c6Items = .ok [[c6Record]] ∧
    (∀ rs ∈ [[c6Record]], ∀ r ∈ rs, ∃ c ∈ c6Items,
      jsTruthy c.no = true ∧ c.del_yn ≠ "Y" ∧
      r.contents = jsTrim ((fun s => s) c.memo) ∧ r.contents ≠ "") :=
  ⟨rfl, (c6_comment_filters (fun s => s) 2025 ["DC&G&gal&42&9"] "p1" c6Url
    c6Items [[c6Record]] rfl).2.1⟩

theorem dropWhile_head_neg {p : Char → Bool} : ∀ {l : List Char},
    (∀ c, l.head? = some c → p c = false) → l.dropWhile p = l
  | [], _ => rfl
  | a :: _, h => by simp [List.dropWhile_cons, h a rfl]

theorem mem_of_getLastQ {l : List Char} {a : Char} (h : l.getLast? = some a) :
    a ∈ l := by
  rw [← List.head?_reverse] at h
  cases hr : l.reverse with
  | nil => rw [hr] at h; exact absurd h (by simp)
  | cons b t =>
    rw [hr] at h
    have hb : b = a := by simpa using h
    subst hb
    have hm : b ∈ l.reverse := by rw [hr]; simp
    exact List.mem_reverse.1 hm

theorem trimChars_id {l : List Char}
    (h1 : ∀ c, l.head? = some c → isWsChar c = false)
    (h2 : ∀ c, l.getLast? = some c → isWsChar c = false) :
    trimChars l = l := by
  unfold trimChars
  rw [dropWhile_head_neg h1]
  rw [dropWhile_head_neg fun c hc => h2 c (by rwa [List.head?_reverse] at hc)]
  exact List.reverse_reverse l

theorem dotsToDashes_append (l1 l2 : List Char) :
    dotsToDashes (l1 ++ l2) = dotsToDashes l1 ++ dotsToDashes l2 :=
  List.map_append _ l1 l2

theorem dotsToDashes_cons (a : Char) (l : List Char) :
    dotsToDashes (a :: l) = (if a = '.' then '-' else a) :: dotsToDashes l := rfl

theorem dotsToDashes_id {l : List Char} (h : ∀ c ∈ l, c ≠ '.') :
    dotsToDashes l = l := by
  induction l with
  | nil => rfl
  | cons a t ih =>
    rw [dotsToDashes_cons, if_neg (h a (by simp)),
      ih fun c hc => h c (by simp [hc])]

theorem firstSpaceToT_append {l1 : List Char} (l2 : List Char)
    (h : ∀ c ∈ l1, c ≠ ' ') :
    firstSpaceToT (l1 ++ ' ' :: l2) = l1 ++ 'T' :: l2 := by
  induction l1 with
  | nil => simp [firstSpaceToT]
  | cons a t ih =>
    simp only [List.cons_append, firstSpaceToT, if_neg (h a (by simp)),
      List.append_eq]
    rw [ih fun c hc => h c (by simp [hc])]

/-- C7.  A comment date that omits the year (one dot: `MM.DD HH:mm:ss`,
with dot-free and space-free month and day fields and a dot-free,
non-blank time field) is stored with the runtime clock's current year
prepended and the `+09:00` offset attached:
`<year>-MM-DDTHH:mm:ss+09:00`. -/
theorem c7_comment_year_patch (year : Nat) (mm dd tm : String)
    (hy : ∀ c ∈ (toString year).data, c ≠ '.' ∧ isWsChar c = false)
    (hmm : ∀ c ∈ mm.data, c ≠ '.' ∧ c ≠ ' ')
    (hdd : ∀ c ∈ dd.data, c ≠ '.' ∧ c ≠ ' ')
    (htm : ∀ c ∈ tm.data, c ≠ '.' ∧ isWsChar c = false)
    (htm0 : tm ≠ "") :
    commentWrittenAt year (mm ++ "." ++ dd ++ " " ++ tm) =
      toString year ++ "-" ++ mm ++ "-" ++ dd ++ "T" ++ tm ++ "+09:00" := by
  have hmmd : '.' ∉ mm.data := fun hc => (hmm _ hc).1 rfl
  have hrest : '.' ∉ dd.data ++ ' ' :: tm.data := by
    intro hc
    rcases List.mem_append.1 hc with hc | hc
    · exact (hdd _ hc).1 rfl
    · rcases List.mem_cons.1 hc with hc | hc
      · exact absurd hc (by decide)
      · exact (htm _ hc).1 rfl
  have hreg : (mm ++ "." ++ dd ++ " " ++ tm).data
      = mm.data ++ '.' :: (dd.data ++ ' ' :: tm.data) := by
    simp [strData_append, List.append_assoc]
  have hsplit : (splitChars '.' (mm ++ "." ++ dd ++ " " ++ tm).data).length = 2 := by
    rw [hreg, splitChars_append '.' mm.data _ hmmd, splitChars_not_mem '.' _ hrest]
    rfl
  have hs : (toString year ++ "." ++ (mm ++ "." ++ dd ++ " " ++ tm)).data
      = (toString year).data ++
        '.' :: (mm.data ++ '.' :: (dd.data ++ ' ' :: tm.data)) := by
    simp [strData_append, List.append_assoc]
  have hhead : ∀ c, ((toString year).data ++
      '.' :: (mm.data ++ '.' :: (dd.data ++ ' ' :: tm.data))).head? = some c →
      isWsChar c = false := by
    intro c hc
    cases hY : (toString year).data with
    | nil =>
      rw [hY, List.nil_append, List.head?_cons] at hc
      obtain rfl := Option.some.inj hc
      decide
    | cons y ys =>
      rw [hY, List.cons_append, List.head?_cons] at hc
      obtain rfl := Option.some.inj hc
      exact (hy _ (by rw [hY]; simp)).2
  have htm0d : tm.data ≠ [] := fun hd =>
    htm0 (strExt (show tm.data = "".data from hd))
  have hlast : ∀ c, ((toString year).data ++
      '.' :: (mm.data ++ '.' :: (dd.data ++ ' ' :: tm.data))).getLast? = some c →
      isWsChar c = false := by
    intro c hc
    rw [show (toString year).data ++
        '.' :: (mm.data ++ '.' :: (dd.data ++ ' ' :: tm.data))
        = ((toString year).data ++ '.' :: mm.data ++ '.' :: dd.data ++ [' '])
          ++ tm.data from by simp [List.append_assoc]] at hc
    rw [List.getLast?_append] at hc
    cases hl : tm.data.getLast? with
    | none => exact absurd (List.getLast?_eq_none_iff.1 hl) htm0d
    | some b =>
      rw [hl] at hc
      have hb : b = c := by simpa [Option.or] using hc
      subst hb
      exact (htm _ (mem_of_getLastQ hl)).2
  have hdots : dotsToDashes ((toString year).data ++
      '.' :: (mm.data ++ '.' :: (dd.data ++ ' ' :: tm.data)))
      = ((toString year).data ++ '-' :: mm.data ++ '-' :: dd.data)
          ++ ' ' :: tm.data := by
    rw [dotsToDashes_append, dotsToDashes_cons, if_pos rfl,
      dotsToDashes_append, dotsToDashes_cons, if_pos rfl,
      dotsToDashes_append, dotsToDashes_cons, if_neg (by decide)]
    rw [dotsToDashes_id fun c hc => (hy c hc).1,
      dotsToDashes_id fun c hc => (hmm c hc).1,
      dotsToDashes_id fun c hc => (hdd c hc).1,
      dotsToDashes_id fun c hc => (htm c hc).1]
    simp [List.append_assoc]
  have hspaces : ∀ c ∈ (toString year).data ++ '-' :: mm.data ++ '-' :: dd.data,
      c ≠ ' ' := by
    intro c hc
    rcases List.mem_append.1 hc with hc | hc
    · rcases List.mem_append.1 hc with hc | hc
      · intro he
        have hw := (hy c hc).2
        rw [he] at hw
        exact absurd hw (by decide)
      · rcases List.mem_cons.1 hc with rfl | hc
        · decide
        · exact (hmm c hc).2
    · rcases List.mem_cons.1 hc with rfl | hc
      · decide
      · exact (hdd c hc).2
  unfold commentWrittenAt
  rw [if_pos hsplit]
  unfold parseDotDateTimeKST
  rw [hs, trimChars_id hhead hlast, hdots, firstSpaceToT_append _ hspaces]
  apply strExt
  simp [strData_append, strData_mk, List.append_assoc]

/-- Witness for claim C7 at scenario S5 of the specification: the comment
date 09.01 12:34:56 observed during a run in 2025 is stored as
2025-09-01T12:34:56+09:00. -/
theorem c7_comment_year_patch_witness :
    commentWrittenAt 2025 "09.01 12:34:56" = "2025-09-01T12:34:56+09:00" := by
  have h := c7_comment_year_patch 2025 "09" "01" "12:34:56" (by decide)
    (by decide) (by decide) (by decide) (by decide)
  exact h

/-! Multi-run dedup model (claim C3).  The repository port for one scenario
is the pair of persisted platform post ids and platform comment ids; the
mutating calls `insertPost` and `insertCommentsBulk` are trace events.  A
run is `search` over scripted listing blocks, the stable sort, then the
collect loop; per post the scripted `fetched` flag covers the fetch and
parse of the detail page, and the scripted comment pages feed the
`saveCommentInfo` loop one page at a time, with the bulk of each page
persisted before the next page's duplicate checks (as in the source, where
`insertCommentsBulk` completes before the next `getCommentPage`). -/

theorem rowAct_queue_not_mem {repoPosts : List String} {dateFrom : Option Int}
    {r : Row} {pid : String}
    (h : rowAct repoPosts dateFrom r = .queue pid) : pid ∉ repoPosts := by
  unfold rowAct at h
  split at h
  · exact absurd h (by simp)
  · split at h
    · exact absurd h (by simp)
    · split at h
      · exact absurd h (by simp)
      · split at h
        · exact absurd h (by simp)
        · split at h
          · exact absurd h (by simp)
          · rw [RowAct.queue.injEq] at h
            subst h
            assumption

theorem addPostId_nodup {ids : List String} (pid : String) (h : ids.Nodup) :
    (addPostId ids pid).Nodup := by
  unfold addPostId
  by_cases hm : pid ∈ ids
  · rwa [if_pos hm]
  · rw [if_neg hm]
    simpa [List.nodup_append] using ⟨h, hm⟩

theorem addPostId_mem {ids : List String} {pid q : String}
    (h : q ∈ addPostId ids pid) : q ∈ ids ∨ q = pid := by
  unfold addPostId at h
  by_cases hm : pid ∈ ids
  · rw [if_pos hm] at h; exact Or.inl h
  · rw [if_neg hm] at h
    simpa using h

theorem getPostList_inv (repoPosts : List String) (dateFrom : Option Int) :
    ∀ (rows : List Row) (ids : List String), ids.Nodup →
      (∀ p ∈ ids, p ∉ repoPosts) →
      ∀ {b : Bool} {out : List String},
        getPostList repoPosts dateFrom rows ids = .ok (b, out) →
        out.Nodup ∧ ∀ p ∈ out, p ∉ repoPosts := by
  intro rows
  induction rows with
  | nil =>
    intro ids h1 h2 b out h
    obtain ⟨-, rfl⟩ := Prod.mk.injEq .. ▸ (Except.ok.inj h)
    exact ⟨h1, h2⟩
  | cons r rs ih =>
    intro ids h1 h2 b out h
    rw [getPostList] at h
    cases ha : rowAct repoPosts dateFrom r with
    | skip => rw [ha] at h; exact ih ids h1 h2 h
    | stop =>
      rw [ha] at h
      obtain ⟨-, rfl⟩ := Prod.mk.injEq .. ▸ (Except.ok.inj h)
      exact ⟨h1, h2⟩
    | err e => rw [ha] at h; exact absurd h (by simp)
    | queue pid =>
      rw [ha] at h
      refine ih (addPostId ids pid) (addPostId_nodup pid h1) ?_ h
      intro p hp
      rcases addPostId_mem hp with hp | rfl
      · exact h2 p hp
      · exact rowAct_queue_not_mem ha

theorem runPages_inv (repoPosts : List String) (dateFrom : Option Int) :
    ∀ (pages : List (List Row)) (ids : List String), ids.Nodup →
      (∀ p ∈ ids, p ∉ repoPosts) →
      ∀ {b : Bool} {out : List String},
        runPages repoPosts dateFrom pages ids = .ok (b, out) →
        out.Nodup ∧ ∀ p ∈ out, p ∉ repoPosts := by
  intro pages
  induction pages with
  | nil =>
    intro ids h1 h2 b out h
    obtain ⟨-, rfl⟩ := Prod.mk.injEq .. ▸ (Except.ok.inj h)
    exact ⟨h1, h2⟩
  | cons p ps ih =>
    intro ids h1 h2 b out h
    rw [runPages] at h
    cases hg : getPostList repoPosts dateFrom p ids with
    | error e =>
      rw [hg] at h
      exact absurd h (by simp [Bind.bind, Except.bind])
    | ok r1 =>
      rw [hg] at h
      simp only [Bind.bind, Except.bind] at h
      obtain ⟨hn, hm⟩ := getPostList_inv repoPosts dateFrom p ids h1 h2 hg
      by_cases hb : r1.1 = true
      · rw [if_pos hb] at h
        exact ih r1.2 hn hm h
      · rw [if_neg hb] at h
        obtain ⟨-, rfl⟩ := Prod.mk.injEq .. ▸ (Except.ok.inj h)
        exact ⟨hn, hm⟩

theorem search_inv (repoPosts : List String) (dateFrom : Option Int) :
    ∀ (blocks : List Block) (ids : List String), ids.Nodup →
      (∀ p ∈ ids, p ∉ repoPosts) →
      ∀ {out : List String},
        search repoPosts dateFrom blocks ids = .ok out →
        out.Nodup ∧ ∀ p ∈ out, p ∉ repoPosts := by
  intro blocks
  induction blocks with
  | nil =>
    intro ids h1 h2 out h
    obtain rfl := Except.ok.inj h
    exact ⟨h1, h2⟩
  | cons b bs ih =>
    intro ids h1 h2 out h
    rw [search] at h
    cases hr : runPages repoPosts dateFrom (pagesOfBlock b) ids with
    | error e =>
      rw [hr] at h
      exact absurd h (by simp [Bind.bind, Except.bind])
    | ok r1 =>
      rw [hr] at h
      simp only [Bind.bind, Except.bind] at h
      obtain ⟨hn, hm⟩ := runPages_inv repoPosts dateFrom (pagesOfBlock b) ids
        h1 h2 hr
      by_cases hb : r1.1 = true
      · rw [if_pos hb] at h
        exact ih r1.2 hn hm h
      · rw [if_neg hb] at h
        obtain rfl := Except.ok.inj h
        exact ⟨hn, hm⟩

theorem saveCommentItems_fresh {strip : String → String} {year : Nat}
    {existing : List String} {postId : String} {url : Url}
    {items : List DCCommentApiItem} {rs : List CommentRecord}
    (h : saveCommentItems strip year existing postId url items = .ok rs) :
    ∀ r ∈ rs, r.platformCommentId ∉ existing := by
  cases hu : urlToPlatformId url with
  | error e =>
    have hnil := saveCommentItems_err strip year existing postId url hu h
    subst hnil
    simp
  | ok pid =>
    have hinfo : ∃ info, extractGalleryInfoFromUrl url = .ok info := by
      rw [urlToPlatformId] at hu
      cases hx : extractGalleryInfoFromUrl url with
      | error e => rw [hx] at hu; exact absurd hu (by simp [Except.map])
      | ok info => exact ⟨info, rfl⟩
    obtain ⟨info, hinfo⟩ := hinfo
    rw [saveCommentItems_ok strip year existing postId url hu hinfo items] at h
    obtain rfl := Except.ok.inj h
    intro r hr
    rw [List.mem_map] at hr
    obtain ⟨c, hcf, hrc⟩ := hr
    rw [List.mem_filter] at hcf
    have hkeep := hcf.2
    simp only [keepComment, Bool.and_eq_true, Bool.not_eq_true] at hkeep
    have hcont := hkeep.1.2
    subst hrc
    intro hm
    rw [show (mkCommentRecord strip year postId pid
        (info.gallType.code ++ "&" ++ info.galleryId) c).platformCommentId
      = pid ++ "&" ++ jsTemplate c.no from rfl] at hm
    have : existing.contains (pid ++ "&" ++ jsTemplate c.no) = true := by
      simpa using hm
    rw [this] at hcont
    exact absurd hcont (by simp)

structure Repo where
  posts : List String
  comments : List String

/-- A mutating repository call of the collection phase: `insertPost` with a
platform post id, or `insertCommentsBulk` with the platform comment ids of
the inserted rows. -/
inductive RepoEvent where
  | post (pid : String)
  | bulk (cids : List String)

def applyEvent : Repo → RepoEvent → Repo
  | repo, .post pid => ⟨repo.posts ++ [pid], repo.comments⟩
  | repo, .bulk cids => ⟨repo.posts, repo.comments ++ cids⟩

def applyEvents (repo : Repo) (evs : List RepoEvent) : Repo :=
  evs.foldl applyEvent repo

/-- The dedup property of claim C3 over a trace: every `insertPost` carries
a platform post id the repository does not yet have, and every bulk insert
carries only platform comment ids not yet persisted at the time of the
call. -/
def GoodTrace : Repo → List RepoEvent → Prop
  | _, [] => True
  | repo, ev :: evs =>
    (match ev with
     | .post pid => pid ∉ repo.posts
     | .bulk cids => ∀ c ∈ cids, c ∉ repo.comments) ∧
    GoodTrace (applyEvent repo ev) evs

theorem applyEvents_append (repo : Repo) (e1 e2 : List RepoEvent) :
    applyEvents repo (e1 ++ e2) = applyEvents (applyEvents repo e1) e2 :=
  List.foldl_append ..

theorem goodTrace_append {repo : Repo} {e1 e2 : List RepoEvent}
    (h1 : GoodTrace repo e1) (h2 : GoodTrace (applyEvents repo e1) e2) :
    GoodTrace repo (e1 ++ e2) := by
  induction e1 generalizing repo with
  | nil => exact h2
  | cons ev evs ih =>
    obtain ⟨ha, hb⟩ := h1
    exact ⟨ha, ih hb h2⟩

/-- `saveCommentsFromPost` (source lines 754..775): one scripted page at a
time; an empty upstream list or a thrown error ends the loop, an empty
survivor set issues no bulk call, and each page's bulk is persisted before
the next page runs its duplicate checks. -/
def saveCommentsFromPost (strip : String → String) (year : Nat)
    (pid : String) (u : Url) :
    List (List DCCommentApiItem) → List String → List RepoEvent
  | [], _ => []
  | page :: rest, repoC =>
    if page = [] then []
    else
      match saveCommentItems strip year repoC pid u page with
      | .error _ => []
      | .ok rs =>
        if rs = [] then saveCommentsFromPost strip year pid u rest repoC
        else .bulk (rs.map CommentRecord.platformCommentId) ::
          saveCommentsFromPost strip year pid u rest
            (repoC ++ rs.map CommentRecord.platformCommentId)

theorem saveCommentsFromPost_good (strip : String → String) (year : Nat)
    (pid : String) (u : Url) :
    ∀ (pages : List (List DCCommentApiItem)) (posts repoC : List String),
      GoodTrace ⟨posts, repoC⟩
        (saveCommentsFromPost strip year pid u pages repoC) ∧
      ∃ newC, applyEvents ⟨posts, repoC⟩
        (saveCommentsFromPost strip year pid u pages repoC) = ⟨posts, newC⟩ := by
  intro pages
  induction pages with
  | nil => exact fun posts repoC => ⟨trivial, repoC, rfl⟩
  | cons page rest ih =>
    intro posts repoC
    rw [saveCommentsFromPost]
    by_cases hpage : page = []
    · rw [if_pos hpage]
      exact ⟨trivial, repoC, rfl⟩
    · rw [if_neg hpage]
      cases hsi : saveCommentItems strip year repoC pid u page with
      | error e => exact ⟨trivial, repoC, rfl⟩
      | ok rs =>
        dsimp only
        by_cases hrs : rs = []
        · rw [if_pos hrs]
          exact ih posts repoC
        · rw [if_neg hrs]
          have hfresh : ∀ c ∈ rs.map CommentRecord.platformCommentId,
              c ∉ repoC := by
            intro c hc
            rw [List.mem_map] at hc
            obtain ⟨r, hr, rfl⟩ := hc
            exact saveCommentItems_fresh hsi r hr
          obtain ⟨hg, newC, hnc⟩ :=
            ih posts (repoC ++ rs.map CommentRecord.platformCommentId)
          exact ⟨⟨hfresh, hg⟩, newC, hnc⟩

/-- The scripted outcome of one post's detail crawl: whether the detail
page was fetched and parsed (so `insertPost` runs), and the comment pages
the comment endpoint returns. -/
structure PostScript where
  fetched : Bool
  commentPages : List (List DCCommentApiItem)

/-- `savePostInfo` for one queued platform id (source lines 676..752): on a
successful fetch and parse the post row is inserted, then the comment loop
runs against the URL rebuilt from the platform id. -/
def collectPost (strip : String → String) (year : Nat)
    (ps : String → PostScript) (repo : Repo) (pid : String) : List RepoEvent :=
  if (ps pid).fetched then
    .post pid ::
      (match parseUrl (platformIdToUrl pid) with
       | none => []
       | some u =>
         saveCommentsFromPost strip year pid u (ps pid).commentPages
           repo.comments)
  else []

theorem collectPost_good (strip : String → String) (year : Nat)
    (ps : String → PostScript) (repo : Repo) (pid : String)
    (hp : pid ∉ repo.posts) :
    GoodTrace repo (collectPost strip year ps repo pid) ∧
    ∀ q ∈ (applyEvents repo (collectPost strip year ps repo pid)).posts,
      q ∈ repo.posts ∨ q = pid := by
  rw [collectPost]
  by_cases hf : (ps pid).fetched = true
  · rw [if_pos hf]
    cases hu : parseUrl (platformIdToUrl pid) with
    | none =>
      refine ⟨⟨hp, trivial⟩, ?_⟩
      intro q hq
      simpa using List.mem_append.1 hq
    | some u =>
      obtain ⟨hg, newC, hnc⟩ := saveCommentsFromPost_good strip year pid u
        (ps pid).commentPages (repo.posts ++ [pid]) repo.comments
      refine ⟨⟨hp, hg⟩, ?_⟩
      intro q hq
      have : applyEvents repo (RepoEvent.post pid ::
          saveCommentsFromPost strip year pid u (ps pid).commentPages
            repo.comments)
          = ⟨repo.posts ++ [pid], newC⟩ := hnc
      rw [this] at hq
      simpa using List.mem_append.1 hq
  · rw [if_neg hf]
    exact ⟨trivial, fun q hq => Or.inl hq⟩

/-- The collect loop of `startCrawling` (source lines 400..412) over the
sorted queue, threading the repository state. -/
def collectIds (strip : String → String) (year : Nat)
    (ps : String → PostScript) : Repo → List String → Repo × List RepoEvent
  | repo, [] => (repo, [])
  | repo, pid :: rest =>
    let evs := collectPost strip year ps repo pid
    let r := collectIds strip year ps (applyEvents repo evs) rest
    (r.1, evs ++ r.2)

theorem collectIds_good (strip : String → String) (year : Nat)
    (ps : String → PostScript) :
    ∀ (ids : List String) (repo : Repo), ids.Nodup →
      (∀ p ∈ ids, p ∉ repo.posts) →
      GoodTrace repo (collectIds strip year ps repo ids).2 ∧
      (collectIds strip year ps repo ids).1
        = applyEvents repo (collectIds strip year ps repo ids).2 := by
  intro ids
  induction ids with
  | nil => exact fun repo _ _ => ⟨trivial, rfl⟩
  | cons pid rest ih =>
    intro repo hnd hmem
    have hp : pid ∉ repo.posts := hmem pid (by simp)
    obtain ⟨hg1, hpm⟩ := collectPost_good strip year ps repo pid hp
    have hrest : ∀ p ∈ rest,
        p ∉ (applyEvents repo (collectPost strip year ps repo pid)).posts := by
      intro p hpr hmem2
      rcases hpm p hmem2 with h | rfl
      · exact hmem p (by simp [hpr]) h
      · exact (List.nodup_cons.1 hnd).1 hpr
    obtain ⟨hg2, heq2⟩ := ih (applyEvents repo
      (collectPost strip year ps repo pid)) (List.nodup_cons.1 hnd).2 hrest
    constructor
    · exact goodTrace_append hg1 hg2
    · show (collectIds strip year ps
        (applyEvents repo (collectPost strip year ps repo pid)) rest).1 = _
      rw [heq2, ← applyEvents_append]
      rfl

/-- One run's scripted inputs: the pagination blocks the listing walk sees,
the incremental date floor, the runtime clock's year, the HTML-to-text
conversion, and the per-post detail scripts. -/
structure RunScript where
  blocks : List Block
  dateFrom : Option Int
  year : Nat
  strip : String → String
  postScripts : String → PostScript

/-- `startCrawling` (source lines 377..418): the listing walk from an empty
in-run id set, the stable sort of the queued ids, then the collect loop; a
throw of `search` aborts the run before anything is persisted. -/
def runCrawler (s : RunScript) (repo : Repo) : Repo × List RepoEvent :=
  match search repo.posts s.dateFrom s.blocks [] with
  | .error _ => (repo, [])
  | .ok ids => collectIds s.strip s.year s.postScripts repo (jsSortBy dcCmp ids)

theorem runCrawler_good (s : RunScript) (repo : Repo) :
    GoodTrace repo (runCrawler s repo).2 ∧
    (runCrawler s repo).1 = applyEvents repo (runCrawler s repo).2 := by
  rw [runCrawler]
  cases hs : search repo.posts s.dateFrom s.blocks [] with
  | error e => exact ⟨trivial, rfl⟩
  | ok ids =>
    obtain ⟨hnd, hmem⟩ := search_inv repo.posts s.dateFrom s.blocks []
      (by simp) (by simp) hs
    have hperm := jsSortBy_perm dcCmp ids
    exact collectIds_good s.strip s.year s.postScripts (jsSortBy dcCmp ids)
      repo (hperm.symm.nodup hnd) (fun p hp => hmem p (hperm.mem_iff.1 hp))

/-- A sequence of runs on one scenario, each starting from the repository
state the previous one left behind. -/
def runsModel : Repo → List RunScript → Repo × List RepoEvent
  | repo, [] => (repo, [])
  | repo, s :: rest =>
    let r1 := runCrawler s repo
    let r2 := runsModel r1.1 rest
    (r2.1, r1.2 ++ r2.2)

/-- C3.  Across any sequence of runs on one scenario, starting from any
repository state, the trace of repository mutations is dedup-clean: every
`insertPost` carries a platform post id the repository does not yet contain
(the walker checked `findPostByPlatformId` against the run-start state and
the in-run queue is a set), and every `insertCommentsBulk` call carries
only platform comment ids not yet persisted at the time of the call
(`commentExists` is checked against the repository state of that page,
which already includes all earlier bulks). -/
theorem c3_dedup_across_runs (repo0 : Repo) (scripts : List RunScript) :
    GoodTrace repo0 (runsModel repo0 scripts).2 := by
  induction scripts generalizing repo0 with
  | nil => exact trivial
  | cons s rest ih =>
    obtain ⟨hg, heq⟩ := runCrawler_good s repo0
    refine goodTrace_append hg ?_
    rw [← heq]
    exact ih (runCrawler s repo0).1

/-- Sanity instance of the runs model: one run over one single-row listing
page queues one post and persists one post row and one comment bulk, so the
dedup property is established over non-trivial traces. -/
theorem runsModel_sample :
    (runsModel ⟨[], []⟩
      [⟨[⟨[⟨some "42", "1", some ⟨"https", "gall.dcinside.com",
            "/board/view", "id=gal&no=42"⟩, none⟩], []⟩], none, 2025,
        (fun s => s),
        (fun _ => ⟨true, [[⟨some "10", "N", " hi ", none, none, none,
          "2025.09.01 10:00:00"⟩]]⟩)⟩]).2
      = [.post "DC&G&gal&42", .bulk ["DC&G&gal&42&10"]] := rfl
